import Mathlib

/-!
Verification of the device command pipeline of the `hue_lighting_toys`
repository (files `hue_toys/phue_helper.py` and `hue_toys/lightctl_curses.py`),
via a shallow embedding in Lean.

Python dictionaries are modelled as association lists with unique keys
(`AList`); dictionary values are modelled by the `Value` type, with Python
floats represented exactly as rationals.  Wall-clock time in the throttled
update worker is modelled by rationals as well.
-/

namespace HueToys

/-- A Python value stored in a light-parameter dictionary: an int, a float
(modelled as an exact rational), a two-element `[x, y]` list, a bool, or a
string. -/
inductive Value where
  | int (n : ℤ)
  | rat (q : ℚ)
  | pair (x y : ℚ)
  | bool (b : Bool)
  | str (s : String)
deriving DecidableEq, Repr

/-- A Python dict, modelled as an insertion-ordered association list. -/
abbrev AList (κ α : Type) := List (κ × α)

/-- `d[k]` as an `Option` (CPython reads the first = unique binding). -/
def aget [DecidableEq κ] : AList κ α → κ → Option α
  | [], _ => none
  | (k', v) :: rest, k => if k' = k then some v else aget rest k

/-- `d.get(k, dflt)`. -/
def agetD [DecidableEq κ] (d : AList κ α) (k : κ) (dflt : α) : α :=
  (aget d k).getD dflt

/-- `k in d`. -/
def amem [DecidableEq κ] (d : AList κ α) (k : κ) : Bool :=
  (aget d k).isSome

/-- `d[k] = v`: update the existing binding in place, else append. -/
def aset [DecidableEq κ] : AList κ α → κ → α → AList κ α
  | [], k, v => [(k, v)]
  | (k', v') :: rest, k, v =>
    if k' = k then (k', v) :: rest else (k', v') :: aset rest k v

/-- `d.pop(k, None)`: remove the binding of `k`, if any. -/
def apop [DecidableEq κ] : AList κ α → κ → AList κ α
  | [], _ => []
  | (k', v') :: rest, k => if k' = k then rest else (k', v') :: apop rest k

/-- The keys of the dict are distinct (true of every real Python dict). -/
abbrev AKeysNodup [DecidableEq κ] (d : AList κ α) : Prop := (d.map Prod.fst).Nodup

/-- A light-parameter dictionary (string keys). -/
abbrev PDict := AList String Value

/-- Numeric reading of a Python value (`bool` is an `int` subclass in
Python). `none` for values that are not numbers. -/
def vnum : Value → Option ℚ
  | .int n => some (n : ℚ)
  | .rat q => some q
  | .bool b => some (if b then 1 else 0)
  | _ => none

/-- Numeric reading with default 0 (keys read by the pipeline always hold
numbers in the source; anything else would be a `TypeError` there). -/
def vnumD (v : Value) : ℚ := (vnum v).getD 0

/-- Python `==` on the values the pipeline handles: numbers compare by
numeric value across int/float/bool, lists and strings structurally,
cross-kind comparisons are `False`. -/
def veq (a b : Value) : Bool :=
  match vnum a, vnum b with
  | some x, some y => x == y
  | _, _ =>
    match a, b with
    | .pair x y, .pair x' y' => x == x' && y == y'
    | .str s, .str t => s == t
    | _, _ => false

/-- Python truthiness of the values in the model. -/
def truthy : Value → Bool
  | .bool b => b
  | .int n => n != 0
  | .rat q => q != 0
  | .str s => !s.isEmpty
  | .pair _ _ => true

section AListLemmas

variable {κ α : Type} [DecidableEq κ]

theorem aget_aset_self (d : AList κ α) (k : κ) (v : α) :
    aget (aset d k v) k = some v := by
  induction d with
  | nil => simp [aset, aget]
  | cons hd tl ih =>
    by_cases h : hd.1 = k <;> simp [aset, aget, h, ih]

theorem aget_aset_ne (d : AList κ α) {k k' : κ} (v : α) (h : k' ≠ k) :
    aget (aset d k v) k' = aget d k' := by
  have h' : ¬ (k = k') := fun hh => h hh.symm
  induction d with
  | nil => simp [aset, aget, h']
  | cons hd tl ih =>
    by_cases hh : hd.1 = k
    · simp [aset, aget, hh, h']
    · simp only [aset, if_neg hh, aget]
      by_cases hk : hd.1 = k' <;> simp [hk, ih]

theorem aget_apop_ne (d : AList κ α) {k k' : κ} (h : k' ≠ k) :
    aget (apop d k) k' = aget d k' := by
  induction d with
  | nil => simp [apop]
  | cons hd tl ih =>
    by_cases hh : hd.1 = k
    · have h2 : ¬ (hd.1 = k') := fun he => h (he ▸ hh : k' = k)
      simp only [apop, if_pos hh, aget, if_neg h2]
    · simp only [apop, if_neg hh, aget]
      by_cases hk : hd.1 = k' <;> simp [hk, ih]

theorem aget_eq_none_of_not_mem_keys (d : AList κ α) (k : κ)
    (h : k ∉ d.map Prod.fst) : aget d k = none := by
  induction d with
  | nil => simp [aget]
  | cons hd tl ih =>
    simp only [List.map_cons, List.mem_cons, not_or] at h
    have : ¬ (hd.1 = k) := fun he => h.1 he.symm
    simp [aget, this, ih h.2]

theorem mem_keys_aset (d : AList κ α) (k : κ) (v : α) (x : κ)
    (hx : x ∈ (aset d k v).map Prod.fst) : x ∈ d.map Prod.fst ∨ x = k := by
  induction d with
  | nil => simpa [aset] using hx
  | cons hd tl ih =>
    by_cases hh : hd.1 = k
    · simp only [aset, if_pos hh, List.map_cons, List.mem_cons] at hx
      simp only [List.map_cons, List.mem_cons]
      rcases hx with hx | hx
      · exact Or.inl (Or.inl hx)
      · exact Or.inl (Or.inr hx)
    · simp only [aset, if_neg hh, List.map_cons, List.mem_cons] at hx ⊢
      rcases hx with hx | hx
      · exact Or.inl (Or.inl hx)
      · rcases ih hx with hx2 | hx2
        · exact Or.inl (Or.inr hx2)
        · exact Or.inr hx2

theorem mem_keys_apop (d : AList κ α) (k : κ) (x : κ)
    (hx : x ∈ (apop d k).map Prod.fst) : x ∈ d.map Prod.fst := by
  induction d with
  | nil => simp [apop] at hx
  | cons hd tl ih =>
    by_cases hh : hd.1 = k
    · simp only [apop, if_pos hh] at hx
      simp only [List.map_cons, List.mem_cons]
      exact Or.inr hx
    · simp only [apop, if_neg hh, List.map_cons, List.mem_cons] at hx ⊢
      rcases hx with hx | hx
      · exact Or.inl hx
      · exact Or.inr (ih hx)

theorem nodup_apop (d : AList κ α) (k : κ) (hn : AKeysNodup d) :
    AKeysNodup (apop d k) := by
  induction d with
  | nil => simp [apop, AKeysNodup]
  | cons hd tl ih =>
    simp only [AKeysNodup, List.map_cons, List.nodup_cons] at hn
    by_cases hh : hd.1 = k
    · simpa [AKeysNodup, apop, hh] using hn.2
    · simp only [AKeysNodup, apop, if_neg hh, List.map_cons, List.nodup_cons]
      exact ⟨fun hmem => hn.1 (mem_keys_apop tl k hd.1 hmem), ih hn.2⟩

theorem nodup_aset (d : AList κ α) (k : κ) (v : α) (hn : AKeysNodup d) :
    AKeysNodup (aset d k v) := by
  induction d with
  | nil => simp [aset, AKeysNodup]
  | cons hd tl ih =>
    simp only [AKeysNodup, List.map_cons, List.nodup_cons] at hn
    by_cases hh : hd.1 = k
    · simp only [AKeysNodup, aset, if_pos hh, List.map_cons, List.nodup_cons]
      exact ⟨hn.1, hn.2⟩
    · simp only [AKeysNodup, aset, if_neg hh, List.map_cons, List.nodup_cons]
      refine ⟨fun hmem => ?_, ih hn.2⟩
      rcases mem_keys_aset tl k v hd.1 hmem with hx | hx
      · exact hn.1 hx
      · exact hh hx

theorem aget_apop_self (d : AList κ α) (k : κ) (hn : AKeysNodup d) :
    aget (apop d k) k = none := by
  induction d with
  | nil => simp [apop, aget]
  | cons hd tl ih =>
    simp only [AKeysNodup, List.map_cons, List.nodup_cons] at hn
    by_cases hh : hd.1 = k
    · simp only [apop, if_pos hh]
      exact aget_eq_none_of_not_mem_keys tl k (hh ▸ hn.1)
    · simp only [apop, if_neg hh, aget, if_neg hh]
      exact ih hn.2

end AListLemmas

/-! ## Parameter Translator (`phue_helper.py`) -/

/-- `MIN['ct']` (minimum native mired color temperature). -/
def MIN_ct : ℚ := 153

/-- `MAX['ct']` (maximum native mired color temperature). -/
def MAX_ct : ℚ := 500

/-- `kelvin_to_xy(kelvin)`: approximate CIE `[x, y]` pair for a Kelvin color
temperature, via the CIE 1960 UCS Planckian-locus fit converted to CIE 1931. -/
def kelvin_to_xy (kelvin : ℚ) : ℚ × ℚ :=
  let u := (0.860117757 + 1.54118254e-4 * kelvin + 1.28641212e-7 * kelvin ^ 2)
         / (1 + 8.42420235e-4 * kelvin + 7.08145163e-7 * kelvin ^ 2)
  let v := (0.317398726 + 4.22806245e-5 * kelvin + 4.20481691e-8 * kelvin ^ 2)
         / (1 - 2.89741816e-5 * kelvin + 1.61456053e-7 * kelvin ^ 2)
  let x := (3 * u) / (2 * u - 8 * v + 4)
  let y := (2 * v) / (2 * u - 8 * v + 4)
  (x, y)

/-- `tungsten_cct(brightness)`: approximate tungsten color temperature in
Kelvin for an incandescent lamp dimmed to Hue brightness 1-254. -/
def tungsten_cct (brightness : ℚ) : ℚ :=
  5.63925392181 * brightness + 1423.98106079

/-- `conv_ct(color_temp)`: convert mired to Kelvin or vice-versa. -/
def conv_ct (color_temp : ℚ) : ℚ := 1000000 / color_temp

/-- Python `int()` applied to a number: truncation toward zero. -/
def pytrunc (q : ℚ) : ℤ := if 0 ≤ q then ⌊q⌋ else -⌊-q⌋

/-- `iconv_ct(color_temp)`: convert mired to Kelvin and truncate to int. -/
def iconv_ct (color_temp : ℚ) : ℤ := pytrunc (conv_ct color_temp)

/-- First step of `_set_light_translate_extensions`:
`if 'inc' in params_dict: bri = inc; ctk = tungsten_cct(pop('inc'))`. -/
def translate_inc (params_dict : PDict) : PDict :=
  if amem params_dict "inc" then
    let incv := (aget params_dict "inc").getD (.int 0)
    aset (apop (aset params_dict "bri" incv) "inc") "ctk"
      (.rat (tungsten_cct (vnumD incv)))
  else params_dict

/-- Second step of `_set_light_translate_extensions`:
`if 'ct' in params_dict and not MIN['ct'] <= ct <= MAX['ct']:
ctk = iconv_ct(pop('ct'))`. -/
def translate_ct (params_dict : PDict) : PDict :=
  if amem params_dict "ct" then
    let ctv := vnumD ((aget params_dict "ct").getD (.int 0))
    if ¬ (MIN_ct ≤ ctv ∧ ctv ≤ MAX_ct) then
      aset (apop params_dict "ct") "ctk" (.int (iconv_ct ctv))
    else params_dict
  else params_dict

/-- Third step of `_set_light_translate_extensions`:
`if 'ctk' in params_dict: xy = kelvin_to_xy(pop('ctk'))`. -/
def translate_ctk (params_dict : PDict) : PDict :=
  if amem params_dict "ctk" then
    let ctkv := vnumD ((aget params_dict "ctk").getD (.int 0))
    aset (apop params_dict "ctk") "xy"
      (.pair (kelvin_to_xy ctkv).1 (kelvin_to_xy ctkv).2)
  else params_dict

/-- `ExtendedBridge._set_light_translate_extensions(params_dict)`: expand the
extended parameters `inc`, out-of-range `ct`, and `ctk` into primitive ones.
The source mutates `params_dict` in place; here the updated dict is returned. -/
def set_light_translate_extensions (params_dict : PDict) : PDict :=
  translate_ctk (translate_ct (translate_inc params_dict))

/-- `ExtendedBridge.set_light` issues a request to the underlying bridge iff
the translated parameter dict is non-empty (`if params: ... return [[]]`). -/
def set_light_issues_request (params : PDict) : Bool :=
  !(set_light_translate_extensions params).isEmpty

/-! ## Dedup Cache (`ExtendedBridge._set_light_optimize_params`) -/

/-- The mode-invalidation block at the top of the
`for param, value in params.items()` loop of `_set_light_optimize_params`:
remove cached parameters that the incoming parameter makes stale. -/
def invalidate_state (state : PDict) (param : String) (value : Value) : PDict :=
  if param = "on" ∧ truthy value = false then
    apop state "bri"
  else if param = "hue" ∨ param = "sat" then
    apop (apop state "xy") "ct"
  else if param = "xy" then
    apop (apop (apop state "hue") "sat") "ct"
  else if param = "ct" then
    apop (apop (apop state "hue") "sat") "xy"
  else state

/-- The elision test of `_set_light_optimize_params`: drop `param` from the
outgoing dict when the (invalidated) cached state holds the same value,
except that `transitiontime` is never elided. -/
def elide_param (state new_params : PDict) (param : String) (value : Value) :
    PDict :=
  match aget state param with
  | some sv =>
    if veq value sv = true ∧ param ≠ "transitiontime" then apop new_params param
    else new_params
  | none => new_params

/-- One iteration of the `for param, value in params.items()` loop of
`_set_light_optimize_params`: mode-invalidate the cached state, elide the
parameter from the outgoing dict when unchanged, then record the new value
in the cached state.  The accumulator carries `(cached_state, new_params)`. -/
def optimize_step (acc : PDict × PDict) (kv : String × Value) : PDict × PDict :=
  let state := invalidate_state acc.1 kv.1 kv.2
  (aset state kv.1 kv.2, elide_param state acc.2 kv.1 kv.2)

/-- `ExtendedBridge._set_light_optimize_params(light_id, params)` for one
light: returns the updated cached state for that light together with the
reduced params dict (`new_params = params.copy()` filtered in the loop). -/
def set_light_optimize_params (cached : PDict) (params : PDict) : PDict × PDict :=
  params.foldl optimize_step (cached, params)

/-! ## Device Gateway retry loop (`ExtendedBridge.request`)

The underlying `phue.Bridge.request` call is modelled by an oracle
`attempt : ℕ → Except E A` giving the outcome of the n-th call (`error` =
`ConnectionError` / `OSError` / `PhueRequestTimeout` being raised).  The model
returns the number of attempts made, the list of sleeps performed (each of
`retry_wait` seconds), and the final outcome.  The source's loop counter
`curr_retries` starts at 0 and the loop re-enters while `curr_retries <
retries`; the structural argument `budget` below equals
`retries - curr_retries`, so `budget = 0` is exactly the source's
`curr_retries >= self.retries` give-up test. -/

/-- The `while True` loop body of `ExtendedBridge.request`. -/
def requestLoop {E A : Type} (attempt : ℕ → Except E A) (retry_wait : ℚ) :
    ℕ → ℕ → ℕ × List ℚ × Except E A
  | budget, curr =>
    match attempt curr with
    | .ok a => (1, [], .ok a)
    | .error e =>
      match budget with
      | 0 => (1, [], .error e)
      | b + 1 =>
        let rest := requestLoop attempt retry_wait b (curr + 1)
        (rest.1 + 1, retry_wait :: rest.2.1, rest.2.2)

/-- `ExtendedBridge.request`: retry the bridge call up to `retries` times,
sleeping `retry_wait` between attempts; returns (attempts made, sleeps
performed, outcome). -/
def bridgeRequest {E A : Type} (retries : ℕ) (retry_wait : ℚ)
    (attempt : ℕ → Except E A) : ℕ × List ℚ × Except E A :=
  requestLoop attempt retry_wait retries 0

/-! ## State Capture/Restore (`phue_helper.py`) -/

/-- `ExtendedBridge.light_state_is_default(state)`: whether a light state
dict matches the Hue power-on defaults.  (The source indexes `reachable` and
`on` directly; a state dict lacking them would be a `KeyError` there and is
outside the model.) -/
def light_state_is_default (state : PDict) : Bool :=
  truthy (agetD state "reachable" (.bool false))
  && truthy (agetD state "on" (.bool false))
  && veq (agetD state "colormode" (.str "ct")) (.str "ct")
  && veq (agetD state "ct" (.int 366)) (.int 366)
  && (match aget state "bri" with
      | some v => veq v (.int 254)
      | none => false)

/-- The body of the `for light in light_ids` loop of
`ExtendedBridge.collect_light_states`: a reachable light's state is stored
(unless it is the default state and defaults are excluded); an unreachable
light's state is stored only when no entry exists yet. -/
def collect_step (getLight : ℕ → PDict) (include_default_state : Bool)
    (st : AList ℕ PDict) (light : ℕ) : AList ℕ PDict :=
  let light_state := getLight light
  if truthy (agetD light_state "reachable" (.bool false)) then
    if !light_state_is_default light_state || include_default_state then
      aset st light light_state
    else st
  else
    if amem st light then st
    else aset st light light_state

/-- `ExtendedBridge.collect_light_states(light_ids, state, include_default_state)`.
`getLight` is the oracle for `self.get_light(light)['state']`. -/
def collect_light_states (getLight : ℕ → PDict) (light_ids : List ℕ)
    (state : AList ℕ PDict) (include_default_state : Bool) : AList ℕ PDict :=
  light_ids.foldl (collect_step getLight include_default_state) state

/-- The `if 'colormode' in state` block of
`ExtendedBridge.normalized_light_state`: drop from `new_state` the keys of
the color representations other than the active one. -/
def drop_inactive_modes (state new_state : PDict) : PDict :=
  if amem state "colormode" then
    let cm := (aget state "colormode").getD (.str "")
    if veq cm (.str "hs") then apop (apop new_state "ct") "xy"
    else if veq cm (.str "ct") then apop (apop (apop new_state "hue") "sat") "xy"
    else if veq cm (.str "xy") then apop (apop (apop new_state "ct") "hue") "sat"
    else new_state
  else new_state

/-- `ExtendedBridge.normalized_light_state(state)`: canonicalized copy of a
light state dict, safe to pass back to `set_light`: drop `mode`, drop the
inactive color representations, then drop `colormode` and `reachable`. -/
def normalized_light_state (state : PDict) : PDict :=
  apop (apop (drop_inactive_modes state (apop state "mode")) "colormode")
    "reachable"

/-- The parameter dict that `ExtendedBridge.restore_light_states` hands to the
underlying `phue.Bridge.set_light` for one light: the normalized captured
state, run through the extension translator by `set_light`. -/
def restore_sent_params (light_state : PDict) : PDict :=
  set_light_translate_extensions (normalized_light_state light_state)

/-! ## Throttled Update Worker (`lightctl_curses.py`, `BridgeUpdateThread`)

The worker's wall clock (`time.time()`) is modelled by a rational `now` that
advances while the thread blocks in `queue.get(timeout=...)` and in
`sleep(...)`; dispatching itself is treated as instantaneous.  The
environment is a list of `QGet` items, one per execution of the
`self.queue.get(timeout=wait_time)` call: either the timeout expires
(`queue.Empty`), or an event arrives `d` seconds into the wait (`d` must be
nonnegative, and at most the computed timeout for the schedule to be
realizable).  The bridge is an oracle `gw`; `gw lid cmd = false` means
`bridge.set_light` raised, which propagates and kills the thread (there is no
exception handler in `BridgeUpdateThread`), recorded here as `aborted`. -/

/-- `MIN_BRIDGE_CMD_INTERVAL = .4` seconds. -/
def MIN_BRIDGE_CMD_INTERVAL : ℚ := 0.4

/-- Python `%` on reals (sign of the divisor; used with positive divisor). -/
def qmod (a b : ℚ) : ℚ := a - b * ⌊a / b⌋

/-- Outcome of one `self.queue.get(timeout=wait_time)` call. -/
inductive QGet where
  /-- the wait timed out (`queue.Empty`). -/
  | timedOut
  /-- an item arrived after `d` seconds: `some (light_id, param, value)` for
  an update event, `none` for the shutdown sentinel `None`. -/
  | got (d : ℚ) (e : Option (ℕ × String × Value))
deriving Repr

/-- State of the worker thread.  `trace` records every `bridge.set_light`
call as `(light_id, cmd, time)`, in order. -/
structure WorkerState where
  pending : AList ℕ PDict
  lastUpdate : ℚ
  now : ℚ
  trace : List (ℕ × PDict × ℚ)
  aborted : Bool
deriving Repr

/-- `self.__pending_cmds[light_id][param] = value` on the `defaultdict`. -/
def pendSet (pending : AList ℕ PDict) (lid : ℕ) (p : String) (v : Value) :
    AList ℕ PDict :=
  aset pending lid (aset ((aget pending lid).getD []) p v)

/-- `BridgeUpdateThread.__update_bridge`: pop one pending command
(CPython `dict.popitem()` removes the most recently inserted entry) and send
it; returns the new state and whether there was a command to process. -/
def updateBridge (gw : ℕ → PDict → Bool) (s : WorkerState) :
    WorkerState × Bool :=
  match s.pending.getLast? with
  | none => (s, false)
  | some (lid, cmd) =>
    if gw lid cmd then
      ({ s with pending := s.pending.dropLast,
                trace := s.trace ++ [(lid, cmd, s.now)] }, true)
    else
      ({ s with pending := s.pending.dropLast,
                trace := s.trace ++ [(lid, cmd, s.now)],
                aborted := true }, true)

/-- The timeout passed to `self.queue.get`:
`cmd_interval - ((time() - last_update_time) % cmd_interval)`. -/
def waitTime (s : WorkerState) : ℚ :=
  MIN_BRIDGE_CMD_INTERVAL - qmod (s.now - s.lastUpdate) MIN_BRIDGE_CMD_INTERVAL

/-- The dispatch check at the top of the `while True` loop of
`BridgeUpdateThread.run`: if a command interval has passed and a command is
pending, send it and remember the send time. -/
def runDispatchStep (gw : ℕ → PDict → Bool) (s : WorkerState) : WorkerState :=
  if MIN_BRIDGE_CMD_INTERVAL ≤ s.now - s.lastUpdate then
    match updateBridge gw s with
    | (s', true) => if s'.aborted then s' else { s' with lastUpdate := s'.now }
    | (s', false) => s'
  else s

/-- The `while True` loop of `BridgeUpdateThread.run`, one `QGet` per
iteration.  Returns the state at loop exit and whether the sentinel was
received (`true` = `break`, so the shutdown flush follows; an unhandled
bridge exception or an exhausted input list exits without flushing). -/
def workerMainLoop (gw : ℕ → PDict → Bool) :
    WorkerState → List QGet → WorkerState × Bool
  | s, [] => (s, false)
  | s, i :: rest =>
    let s1 := runDispatchStep gw s
    if s1.aborted then (s1, false)
    else
      match i with
      | .timedOut => workerMainLoop gw { s1 with now := s1.now + waitTime s1 } rest
      | .got d none => ({ s1 with now := s1.now + d }, true)
      | .got d (some (lid, p, v)) =>
        workerMainLoop gw
          { s1 with now := s1.now + d, pending := pendSet s1.pending lid p v } rest

/-- The shutdown flush `while self.__update_bridge(): sleep(cmd_interval)`.
Each successful iteration removes one pending entry, so `s.pending.length`
bounds the iteration count and serves as structural fuel. -/
def workerFlushGo (gw : ℕ → PDict → Bool) : ℕ → WorkerState → WorkerState
  | 0, s => s
  | fuel + 1, s =>
    match updateBridge gw s with
    | (s', true) =>
      if s'.aborted then s'
      else workerFlushGo gw fuel { s' with now := s'.now + MIN_BRIDGE_CMD_INTERVAL }
    | (s', false) => s'

/-- The shutdown flush of `BridgeUpdateThread.run`. -/
def workerFlush (gw : ℕ → PDict → Bool) (s : WorkerState) : WorkerState :=
  workerFlushGo gw s.pending.length s

/-- The worker state at thread start: no pending commands, no trace,
`last_update_time = 0`, and the wall clock reading `t0`. -/
def workerInit (t0 : ℚ) : WorkerState := ⟨[], 0, t0, [], false⟩

/-- `BridgeUpdateThread.run`: the main loop followed, if the sentinel was
received, by the shutdown flush. -/
def runWorker (gw : ℕ → PDict → Bool) (t0 : ℚ) (inputs : List QGet) :
    WorkerState :=
  let r := workerMainLoop gw (workerInit t0) inputs
  if r.2 then workerFlush gw r.1 else r.1

/-- All event-arrival delays in a schedule are nonnegative (time moves
forward; this is the only part of schedule realizability the theorems need). -/
def DelaysNonneg (inputs : List QGet) : Prop :=
  ∀ i ∈ inputs, match i with
    | QGet.got d _ => 0 ≤ d
    | QGet.timedOut => True

/-- The times of the `bridge.set_light` calls recorded in the trace. -/
def traceTimes (s : WorkerState) : List ℚ := s.trace.map (fun e => e.2.2)

/-- The dispatch times for one light. -/
def dispatchTimes (s : WorkerState) (lid : ℕ) : List ℚ :=
  (s.trace.filter (fun e => decide (e.1 = lid))).map (fun e => e.2.2)

/-- How many dispatches for light `lid` fall in the closed time window
`[a, a + W]`. -/
def windowCount (s : WorkerState) (lid : ℕ) (a W : ℚ) : ℕ :=
  ((dispatchTimes s lid).filter (fun t => decide (a ≤ t) && decide (t ≤ a + W))).length

/-! ## Lemmas about the Parameter Translator -/

theorem aget_none_of_not_amem (d : PDict) (k : String)
    (h : ¬ amem d k = true) : aget d k = none :=
  Option.not_isSome_iff_eq_none.mp (by simpa [amem] using h)

/-- `translate_inc` only touches the keys `inc`, `bri` and `ctk`. -/
theorem aget_translate_inc_ne (p : PDict) (k : String)
    (h1 : k ≠ "inc") (h2 : k ≠ "bri") (h3 : k ≠ "ctk") :
    aget (translate_inc p) k = aget p k := by
  unfold translate_inc
  by_cases hm : amem p "inc" = true
  · rw [if_pos hm, aget_aset_ne _ _ h3, aget_apop_ne _ h1, aget_aset_ne _ _ h2]
  · rw [if_neg hm]

/-- `translate_ct` only touches the keys `ct` and `ctk`. -/
theorem aget_translate_ct_ne (p : PDict) (k : String)
    (h1 : k ≠ "ct") (h2 : k ≠ "ctk") :
    aget (translate_ct p) k = aget p k := by
  unfold translate_ct
  by_cases hm : amem p "ct" = true
  · rw [if_pos hm]
    by_cases hr : ¬ (MIN_ct ≤ vnumD ((aget p "ct").getD (.int 0))
        ∧ vnumD ((aget p "ct").getD (.int 0)) ≤ MAX_ct)
    · rw [if_pos hr, aget_aset_ne _ _ h2, aget_apop_ne _ h1]
    · rw [if_neg hr]
  · rw [if_neg hm]

/-- `translate_ctk` only touches the keys `ctk` and `xy`. -/
theorem aget_translate_ctk_ne (p : PDict) (k : String)
    (h1 : k ≠ "ctk") (h2 : k ≠ "xy") :
    aget (translate_ctk p) k = aget p k := by
  unfold translate_ctk
  by_cases hm : amem p "ctk" = true
  · rw [if_pos hm, aget_aset_ne _ _ h2, aget_apop_ne _ h1]
  · rw [if_neg hm]

theorem nodup_translate_inc (p : PDict) (hn : AKeysNodup p) :
    AKeysNodup (translate_inc p) := by
  unfold translate_inc
  by_cases hm : amem p "inc" = true
  · rw [if_pos hm]
    exact nodup_aset _ _ _ (nodup_apop _ _ (nodup_aset _ _ _ hn))
  · rwa [if_neg hm]

theorem nodup_translate_ct (p : PDict) (hn : AKeysNodup p) :
    AKeysNodup (translate_ct p) := by
  unfold translate_ct
  by_cases hm : amem p "ct" = true
  · rw [if_pos hm]
    by_cases hr : ¬ (MIN_ct ≤ vnumD ((aget p "ct").getD (.int 0))
        ∧ vnumD ((aget p "ct").getD (.int 0)) ≤ MAX_ct)
    · rw [if_pos hr]
      exact nodup_aset _ _ _ (nodup_apop _ _ hn)
    · rwa [if_neg hr]
  · rwa [if_neg hm]

theorem nodup_translate_ctk (p : PDict) (hn : AKeysNodup p) :
    AKeysNodup (translate_ctk p) := by
  unfold translate_ctk
  by_cases hm : amem p "ctk" = true
  · rw [if_pos hm]
    exact nodup_aset _ _ _ (nodup_apop _ _ hn)
  · rwa [if_neg hm]

theorem nodup_translate (p : PDict) (hn : AKeysNodup p) :
    AKeysNodup (set_light_translate_extensions p) :=
  nodup_translate_ctk _ (nodup_translate_ct _ (nodup_translate_inc _ hn))

/-- After full translation there is no `inc` key left. -/
theorem translate_no_inc (p : PDict) (hn : AKeysNodup p) :
    aget (set_light_translate_extensions p) "inc" = none := by
  have h1 : aget (translate_inc p) "inc" = none := by
    unfold translate_inc
    by_cases hm : amem p "inc" = true
    · rw [if_pos hm, aget_aset_ne _ _ (by decide : ("inc" : String) ≠ "ctk")]
      exact aget_apop_self _ _ (nodup_aset _ _ _ hn)
    · rw [if_neg hm]
      exact aget_none_of_not_amem _ _ hm
  unfold set_light_translate_extensions
  rw [aget_translate_ctk_ne _ _ (by decide) (by decide),
    aget_translate_ct_ne _ _ (by decide) (by decide)]
  exact h1

/-- After full translation there is no `ctk` key left. -/
theorem translate_no_ctk (p : PDict) (hn : AKeysNodup p) :
    aget (set_light_translate_extensions p) "ctk" = none := by
  unfold set_light_translate_extensions translate_ctk
  set q := translate_ct (translate_inc p) with hq
  have hqn : AKeysNodup q := nodup_translate_ct _ (nodup_translate_inc _ hn)
  by_cases hm : amem q "ctk" = true
  · rw [if_pos hm, aget_aset_ne _ _ (by decide : ("ctk" : String) ≠ "xy")]
    exact aget_apop_self _ _ hqn
  · rw [if_neg hm]
    exact aget_none_of_not_amem _ _ hm

/-- A `ct` key surviving full translation has a value within the native
range. -/
theorem translate_ct_in_range (p : PDict) (hn : AKeysNodup p) (v : Value)
    (h : aget (set_light_translate_extensions p) "ct" = some v) :
    MIN_ct ≤ vnumD v ∧ vnumD v ≤ MAX_ct := by
  unfold set_light_translate_extensions at h
  rw [aget_translate_ctk_ne _ _ (by decide) (by decide)] at h
  set p1 := translate_inc p with hp1
  have hp1n : AKeysNodup p1 := nodup_translate_inc _ hn
  unfold translate_ct at h
  by_cases hm : amem p1 "ct" = true
  · rw [if_pos hm] at h
    by_cases hr : ¬ (MIN_ct ≤ vnumD ((aget p1 "ct").getD (.int 0))
        ∧ vnumD ((aget p1 "ct").getD (.int 0)) ≤ MAX_ct)
    · rw [if_pos hr, aget_aset_ne _ _ (by decide : ("ct" : String) ≠ "ctk"),
        aget_apop_self _ _ hp1n] at h
      exact absurd h (by simp)
    · rw [if_neg hr] at h
      rw [h] at hr
      simpa using not_not.mp hr
  · rw [if_neg hm] at h
    rw [aget_none_of_not_amem _ _ hm] at h
    exact absurd h (by simp)

/-- A `ctk` key present on entry to the translator is still present after the
first two steps (they may overwrite its value but never remove it). -/
theorem amem_ctk_after_two_stages (p : PDict) (h : amem p "ctk" = true) :
    amem (translate_ct (translate_inc p)) "ctk" = true := by
  have h1 : amem (translate_inc p) "ctk" = true := by
    unfold translate_inc
    by_cases hm : amem p "inc" = true
    · rw [if_pos hm]
      simp [amem, aget_aset_self]
    · rwa [if_neg hm]
  unfold translate_ct
  by_cases hm : amem (translate_inc p) "ct" = true
  · rw [if_pos hm]
    by_cases hr : ¬ (MIN_ct ≤ vnumD ((aget (translate_inc p) "ct").getD (.int 0))
        ∧ vnumD ((aget (translate_inc p) "ct").getD (.int 0)) ≤ MAX_ct)
    · rw [if_pos hr]
      simp [amem, aget_aset_self]
    · rwa [if_neg hr]
  · rwa [if_neg hm]

/-! ## Claim C10 -/

/-- C10: the Translator's expansion is idempotent: for every parameter dict
(with the distinct keys every Python dict has),
`expand(expand(x)) == expand(x)`. -/
theorem translate_extensions_idempotent (p : PDict) (hn : AKeysNodup p) :
    set_light_translate_extensions (set_light_translate_extensions p)
      = set_light_translate_extensions p := by
  have hinc : aget (set_light_translate_extensions p) "inc" = none :=
    translate_no_inc p hn
  have hctk : aget (set_light_translate_extensions p) "ctk" = none :=
    translate_no_ctk p hn
  set q := set_light_translate_extensions p with hq
  have s1 : translate_inc q = q := by
    unfold translate_inc
    rw [if_neg]
    simp [amem, hinc]
  have s2 : translate_ct q = q := by
    unfold translate_ct
    by_cases hm : amem q "ct" = true
    · rw [if_pos hm]
      obtain ⟨v, hv⟩ := Option.isSome_iff_exists.mp (by simpa [amem] using hm)
      have hr := translate_ct_in_range p hn v (by rw [← hq]; exact hv)
      rw [if_neg]
      rw [hv]
      simpa using hr
    · rw [if_neg hm]
  have s3 : translate_ctk q = q := by
    unfold translate_ctk
    rw [if_neg]
    simp [amem, hctk]
  show translate_ctk (translate_ct (translate_inc q)) = q
  rw [s1, s2, s3]

/-- Witness for C10 at a concrete input containing the derived `inc` key. -/
theorem translate_extensions_idempotent_witness :
    AKeysNodup [("inc", Value.int 100), ("on", Value.bool true)] ∧
    set_light_translate_extensions (set_light_translate_extensions
      [("inc", Value.int 100), ("on", Value.bool true)])
      = set_light_translate_extensions
          [("inc", Value.int 100), ("on", Value.bool true)] :=
  ⟨by decide, translate_extensions_idempotent _ (by decide)⟩

/-! ## Claim C3 -/

/-- C3 counterexample: `ctk = 4000` Kelvin lies inside the API's native range
(`MIN['ctk'] = 2000`, `MAX['ctk'] = 6535`), yet expansion does NOT produce
the native key `ct` (the claim demands `ct = 10^6 / 4000 = 250`); it produces
an `xy` chromaticity pair instead. -/
theorem translate_ctk_in_range_not_ct :
    aget (set_light_translate_extensions [("ctk", Value.int 4000)]) "ct" = none
    ∧ (aget (set_light_translate_extensions [("ctk", Value.int 4000)]) "xy").isSome
        = true := by
  constructor <;> decide

/-- C3 amended: an absolute-temperature key `ctk` is ALWAYS expanded to an
`xy` chromaticity pair via the Planckian-locus fit, regardless of range.  The
range test applies to the native relative-temperature key `ct` instead: a
`ct` within the native range 153..500 mired passes through unchanged, while
a `ct` outside that range is converted to Kelvin (`10^6 / ct`, truncated to
int) and then to `xy`. -/
theorem translate_ct_ctk_amended (p : PDict) (hn : AKeysNodup p) :
    (amem p "ctk" = true →
      aget (set_light_translate_extensions p) "ctk" = none ∧
      (aget (set_light_translate_extensions p) "xy").isSome = true) ∧
    (∀ v : Value, aget p "ctk" = some v → aget p "inc" = none →
      aget p "ct" = none →
      aget (set_light_translate_extensions p) "xy"
        = some (.pair (kelvin_to_xy (vnumD v)).1 (kelvin_to_xy (vnumD v)).2)) ∧
    (∀ n : ℤ, aget p "ct" = some (.int n) → 153 ≤ n → n ≤ 500 →
      aget (set_light_translate_extensions p) "ct" = some (.int n)) ∧
    (∀ n : ℤ, aget p "ct" = some (.int n) → (n < 153 ∨ 500 < n) →
      aget (set_light_translate_extensions p) "ct" = none ∧
      aget (set_light_translate_extensions p) "xy"
        = some (.pair (kelvin_to_xy ((iconv_ct (n : ℚ) : ℤ) : ℚ)).1
                      (kelvin_to_xy ((iconv_ct (n : ℚ) : ℤ) : ℚ)).2)) := by
  refine ⟨?_, ?_, ?_, ?_⟩
  · intro hm
    refine ⟨translate_no_ctk p hn, ?_⟩
    have h2 := amem_ctk_after_two_stages p hm
    unfold set_light_translate_extensions translate_ctk
    rw [if_pos h2, aget_aset_self]
    simp
  · intro v hv hinc hct
    have s1 : translate_inc p = p := by
      unfold translate_inc
      rw [if_neg]
      simp [amem, hinc]
    have s2 : translate_ct p = p := by
      unfold translate_ct
      rw [if_neg]
      simp [amem, hct]
    unfold set_light_translate_extensions translate_ctk
    rw [s1, s2, if_pos (by simp [amem, hv] : amem p "ctk" = true), hv,
      aget_aset_self]
    simp
  · intro n hv h1 h2
    have s1 : aget (translate_inc p) "ct" = some (.int n) := by
      rw [aget_translate_inc_ne _ _ (by decide) (by decide) (by decide)]
      exact hv
    have s2 : translate_ct (translate_inc p) = translate_inc p := by
      unfold translate_ct
      rw [if_pos (by simp [amem, s1]), if_neg]
      rw [s1]
      refine not_not_intro ⟨?_, ?_⟩
      · show MIN_ct ≤ vnumD ((some (Value.int n)).getD (.int 0))
        simp only [Option.getD_some, vnumD, vnum, Option.getD]
        show MIN_ct ≤ (n : ℚ)
        unfold MIN_ct
        exact_mod_cast h1
      · show vnumD ((some (Value.int n)).getD (.int 0)) ≤ MAX_ct
        simp only [Option.getD_some, vnumD, vnum, Option.getD]
        show (n : ℚ) ≤ MAX_ct
        unfold MAX_ct
        exact_mod_cast h2
    unfold set_light_translate_extensions
    rw [s2, aget_translate_ctk_ne _ _ (by decide) (by decide)]
    exact s1
  · intro n hv hout
    have hp1n : AKeysNodup (translate_inc p) := nodup_translate_inc _ hn
    have s1 : aget (translate_inc p) "ct" = some (.int n) := by
      rw [aget_translate_inc_ne _ _ (by decide) (by decide) (by decide)]
      exact hv
    have hcond : ¬ (MIN_ct ≤ vnumD ((aget (translate_inc p) "ct").getD (.int 0))
        ∧ vnumD ((aget (translate_inc p) "ct").getD (.int 0)) ≤ MAX_ct) := by
      rw [s1]
      simp only [Option.getD_some, vnumD, vnum, Option.getD]
      intro hcc
      unfold MIN_ct MAX_ct at hcc
      rcases hout with hlt | hgt
      · have : (153 : ℚ) ≤ (n : ℚ) := hcc.1
        have : (153 : ℤ) ≤ n := by exact_mod_cast this
        omega
      · have : (n : ℚ) ≤ (500 : ℚ) := hcc.2
        have : n ≤ (500 : ℤ) := by exact_mod_cast this
        omega
    have s2 : translate_ct (translate_inc p)
        = aset (apop (translate_inc p) "ct") "ctk"
            (.int (iconv_ct (vnumD ((aget (translate_inc p) "ct").getD (.int 0))))) := by
      unfold translate_ct
      rw [if_pos (by simp [amem, s1]), if_pos hcond]
    have hval : vnumD ((aget (translate_inc p) "ct").getD (.int 0)) = (n : ℚ) := by
      rw [s1]
      simp [vnumD, vnum]
    have hp2n : AKeysNodup (translate_ct (translate_inc p)) :=
      nodup_translate_ct _ hp1n
    have hctmem : amem (translate_ct (translate_inc p)) "ctk" = true := by
      rw [s2]
      simp [amem, aget_aset_self]
    constructor
    · unfold set_light_translate_extensions translate_ctk
      rw [if_pos hctmem, aget_aset_ne _ _ (by decide : ("ct" : String) ≠ "xy"),
        aget_apop_ne _ (by decide : ("ct" : String) ≠ "ctk"), s2,
        aget_aset_ne _ _ (by decide : ("ct" : String) ≠ "ctk")]
      exact aget_apop_self _ _ hp1n
    · unfold set_light_translate_extensions translate_ctk
      rw [if_pos hctmem, aget_aset_self]
      have : aget (translate_ct (translate_inc p)) "ctk"
          = some (.int (iconv_ct (n : ℚ))) := by
        rw [s2, hval, aget_aset_self]
      rw [this]
      simp [vnumD, vnum]

/-- Witness for the amended C3 at concrete inputs: an in-range `ctk` becomes
`xy`; an in-range `ct` passes through; an out-of-range `ct` is removed. -/
theorem translate_ct_ctk_amended_witness :
    aget (set_light_translate_extensions [("ctk", Value.int 4000)]) "xy"
      = some (.pair (kelvin_to_xy (vnumD (Value.int 4000))).1
                    (kelvin_to_xy (vnumD (Value.int 4000))).2) ∧
    aget (set_light_translate_extensions [("ct", Value.int 300)]) "ct"
      = some (.int 300) ∧
    aget (set_light_translate_extensions [("ct", Value.int 40)]) "ct" = none :=
  ⟨(translate_ct_ctk_amended [("ctk", Value.int 4000)] (by decide)).2.1
      (Value.int 4000) (by decide) (by decide) (by decide),
   (translate_ct_ctk_amended [("ct", Value.int 300)] (by decide)).2.2.1
      300 (by decide) (by decide) (by decide),
   ((translate_ct_ctk_amended [("ct", Value.int 40)] (by decide)).2.2.2
      40 (by decide) (Or.inl (by decide))).1⟩

/-! ## Claim C5 -/

/-- The retry loop, when every attempt fails: it makes `budget + 1` attempts
starting at attempt `curr`, sleeps `budget` times, and propagates the error
of the last attempt. -/
theorem requestLoop_all_fail {E A : Type} (attempt : ℕ → Except E A)
    (w : ℚ) (hfail : ∀ n, ∃ e, attempt n = .error e) :
    ∀ budget curr, ∃ e, attempt (curr + budget) = .error e ∧
      requestLoop attempt w budget curr
        = (budget + 1, List.replicate budget w, .error e) := by
  intro budget
  induction budget with
  | zero =>
    intro curr
    obtain ⟨e, he⟩ := hfail curr
    exact ⟨e, by simpa using he, by simp [requestLoop, he]⟩
  | succ b ih =>
    intro curr
    obtain ⟨e0, he0⟩ := hfail curr
    obtain ⟨e, he, hrec⟩ := ih (curr + 1)
    refine ⟨e, by rw [← he]; ring_nf, ?_⟩
    rw [requestLoop, he0]
    simp [hrec, List.replicate_succ]

/-- C5: if the underlying bridge call raises a communication failure on every
attempt, `ExtendedBridge.request` makes exactly `retries + 1` attempts,
sleeps `retry_wait` seconds between consecutive attempts (`retries` sleeps in
total), and then propagates the failure to the caller. -/
theorem bridge_request_retry_exhaustion {E A : Type} (retries : ℕ)
    (retry_wait : ℚ) (attempt : ℕ → Except E A)
    (hfail : ∀ n, ∃ e, attempt n = .error e) :
    ∃ e, attempt retries = .error e ∧
      bridgeRequest retries retry_wait attempt
        = (retries + 1, List.replicate retries retry_wait, .error e) := by
  obtain ⟨e, he, hr⟩ := requestLoop_all_fail attempt retry_wait hfail retries 0
  exact ⟨e, by simpa using he, hr⟩

/-- Witness for C5: three attempts and two ten-second sleeps for
`retries = 2` against an always-failing bridge. -/
theorem bridge_request_retry_exhaustion_witness :
    ∃ e : ℕ, (fun _ : ℕ => (Except.error 7 : Except ℕ ℕ)) 2 = .error e ∧
      bridgeRequest 2 10 (fun _ : ℕ => (Except.error 7 : Except ℕ ℕ))
        = (2 + 1, List.replicate 2 10, .error e) :=
  bridge_request_retry_exhaustion 2 10 _ (fun _ => ⟨7, rfl⟩)

/-! ## Lemmas about the Dedup Cache -/

/-- The elision step either leaves the outgoing dict alone or removes the
current parameter, and the removed parameter is never `transitiontime`. -/
theorem elide_param_cases (state np : PDict) (p : String) (v : Value) :
    elide_param state np p v = np
    ∨ (elide_param state np p v = apop np p ∧ p ≠ "transitiontime") := by
  unfold elide_param
  cases hget : aget state p with
  | none => exact Or.inl rfl
  | some sv =>
    by_cases hc : veq v sv = true ∧ p ≠ "transitiontime"
    · exact Or.inr ⟨if_pos hc, hc.2⟩
    · exact Or.inl (if_neg hc)

/-- One optimizer iteration never removes `transitiontime` from the
outgoing dict. -/
theorem optimize_step_keeps_tt (acc : PDict × PDict) (kv : String × Value) :
    aget (optimize_step acc kv).2 "transitiontime" = aget acc.2 "transitiontime" := by
  show aget (elide_param _ acc.2 kv.1 kv.2) _ = _
  rcases elide_param_cases (invalidate_state acc.1 kv.1 kv.2) acc.2 kv.1 kv.2 with
    h | ⟨h, hne⟩
  · rw [h]
  · rw [h]
    exact aget_apop_ne _ (fun he => hne he.symm)

/-- The optimizer never removes `transitiontime` from the outgoing dict. -/
theorem optimize_keeps_tt :
    ∀ (l : List (String × Value)) (acc : PDict × PDict),
      aget (l.foldl optimize_step acc).2 "transitiontime"
        = aget acc.2 "transitiontime" := by
  intro l
  induction l with
  | nil => intro acc; rfl
  | cons kv rest ih =>
    intro acc
    rw [List.foldl_cons, ih, optimize_step_keeps_tt]

/-- Mode invalidation keeps the cached-state keys distinct. -/
theorem nodup_invalidate_state (state : PDict) (p : String) (v : Value)
    (hn : AKeysNodup state) : AKeysNodup (invalidate_state state p v) := by
  unfold invalidate_state
  repeat' split
  all_goals first
    | exact nodup_apop _ _ hn
    | exact nodup_apop _ _ (nodup_apop _ _ hn)
    | exact nodup_apop _ _ (nodup_apop _ _ (nodup_apop _ _ hn))
    | exact hn

/-- One optimizer iteration keeps the cached-state keys distinct. -/
theorem nodup_optimize_step (acc : PDict × PDict) (kv : String × Value)
    (hn : AKeysNodup acc.1) : AKeysNodup (optimize_step acc kv).1 :=
  nodup_aset _ _ _ (nodup_invalidate_state _ _ _ hn)

/-- The optimizer keeps the cached-state keys distinct. -/
theorem nodup_optimize :
    ∀ (l : List (String × Value)) (acc : PDict × PDict),
      AKeysNodup acc.1 → AKeysNodup (l.foldl optimize_step acc).1 := by
  intro l
  induction l with
  | nil => intro acc h; exact h
  | cons kv rest ih =>
    intro acc h
    rw [List.foldl_cons]
    exact ih _ (nodup_optimize_step _ _ h)

theorem optimize_step_fst (acc : PDict × PDict) (kv : String × Value) :
    (optimize_step acc kv).1 = aset (invalidate_state acc.1 kv.1 kv.2) kv.1 kv.2 :=
  rfl

theorem optimize_step_snd (acc : PDict × PDict) (kv : String × Value) :
    (optimize_step acc kv).2
      = elide_param (invalidate_state acc.1 kv.1 kv.2) acc.2 kv.1 kv.2 :=
  rfl

theorem invalidate_state_bri (c : PDict) (v : Value) :
    invalidate_state c "bri" v = c := by
  unfold invalidate_state
  rw [if_neg (fun hc => absurd hc.1 (by decide)), if_neg (by decide),
    if_neg (by decide), if_neg (by decide)]

theorem invalidate_state_hue (c : PDict) (v : Value) :
    invalidate_state c "hue" v = apop (apop c "xy") "ct" := by
  unfold invalidate_state
  rw [if_neg (fun hc => absurd hc.1 (by decide)), if_pos (Or.inl rfl)]

theorem invalidate_state_sat (c : PDict) (v : Value) :
    invalidate_state c "sat" v = apop (apop c "xy") "ct" := by
  unfold invalidate_state
  rw [if_neg (fun hc => absurd hc.1 (by decide)), if_pos (Or.inr rfl)]

theorem invalidate_state_xy (c : PDict) (v : Value) :
    invalidate_state c "xy" v = apop (apop (apop c "hue") "sat") "ct" := by
  unfold invalidate_state
  rw [if_neg (fun hc => absurd hc.1 (by decide)), if_neg (by decide), if_pos rfl]

theorem invalidate_state_ct (c : PDict) (v : Value) :
    invalidate_state c "ct" v = apop (apop (apop c "hue") "sat") "xy" := by
  unfold invalidate_state
  rw [if_neg (fun hc => absurd hc.1 (by decide)), if_neg (by decide),
    if_neg (by decide), if_pos rfl]

theorem invalidate_state_on_false (c : PDict) (v : Value)
    (hv : truthy v = false) : invalidate_state c "on" v = apop c "bri" := by
  unfold invalidate_state
  rw [if_pos ⟨rfl, hv⟩]

theorem invalidate_state_on_true (c : PDict) (v : Value)
    (hv : truthy v = true) : invalidate_state c "on" v = c := by
  unfold invalidate_state
  rw [if_neg (by simp [hv]), if_neg (by decide), if_neg (by decide),
    if_neg (by decide)]

/-! ## Claim C1 -/

/-- C1: with `bri = 100` cached, filtering `{bri: 100}` yields an empty
reduced set and no bridge request is issued; filtering `{bri: 101}` yields
exactly `{bri: 101}` and a request is issued; in both cases the cache ends
up holding the incoming `bri` value; and `transitiontime` is never elided
from any parameter set, even when it matches the cached value. -/
theorem dedup_filter_bri (cache : PDict)
    (h : aget cache "bri" = some (Value.int 100)) :
    (set_light_optimize_params cache [("bri", Value.int 100)]).2 = [] ∧
    set_light_issues_request
      (set_light_optimize_params cache [("bri", Value.int 100)]).2 = false ∧
    aget (set_light_optimize_params cache [("bri", Value.int 100)]).1 "bri"
      = some (Value.int 100) ∧
    (set_light_optimize_params cache [("bri", Value.int 101)]).2
      = [("bri", Value.int 101)] ∧
    set_light_issues_request
      (set_light_optimize_params cache [("bri", Value.int 101)]).2 = true ∧
    aget (set_light_optimize_params cache [("bri", Value.int 101)]).1 "bri"
      = some (Value.int 101) ∧
    (∀ (c params : PDict) (v : Value), aget params "transitiontime" = some v →
      aget (set_light_optimize_params c params).2 "transitiontime" = some v) := by
  have e1 : (set_light_optimize_params cache [("bri", Value.int 100)]).2 = [] := by
    norm_num +decide [set_light_optimize_params, optimize_step, elide_param,
      invalidate_state, truthy, h, veq, vnum, apop]
  have e2 : (set_light_optimize_params cache [("bri", Value.int 101)]).2
      = [("bri", Value.int 101)] := by
    norm_num +decide [set_light_optimize_params, optimize_step, elide_param,
      invalidate_state, truthy, h, veq, vnum]
  refine ⟨e1, by rw [e1]; decide, ?_, e2, by rw [e2]; decide, ?_, ?_⟩
  · show aget (optimize_step (cache, _) ("bri", Value.int 100)).1 "bri" = _
    simp only [optimize_step, aget_aset_self]
  · show aget (optimize_step (cache, _) ("bri", Value.int 101)).1 "bri" = _
    simp only [optimize_step, aget_aset_self]
  · intro c params v hv
    show aget (params.foldl optimize_step (c, params)).2 "transitiontime" = some v
    rw [optimize_keeps_tt]
    exact hv

/-- Witness for C1: the concrete cache `{bri: 100}`, plus a `transitiontime`
kept even when it equals its cached value. -/
theorem dedup_filter_bri_witness :
    (set_light_optimize_params [("bri", Value.int 100)]
      [("bri", Value.int 100)]).2 = [] ∧
    aget (set_light_optimize_params [("transitiontime", Value.int 0)]
      [("transitiontime", Value.int 0)]).2 "transitiontime"
      = some (Value.int 0) :=
  ⟨(dedup_filter_bri [("bri", Value.int 100)] (by decide)).1,
   (dedup_filter_bri [("bri", Value.int 100)] (by decide)).2.2.2.2.2.2
     [("transitiontime", Value.int 0)] [("transitiontime", Value.int 0)]
     (Value.int 0) (by decide)⟩

/-! ## Claim C2 -/

/-- C2: the Dedup Cache applies mode-invalidation before comparing.  Turning
a target off evicts the cached `bri`; writing one color representation
evicts the cached values of the other two; consequently `ct` is not elided
after a `hue`/`sat` write even if `ct: 300` was cached, and `bri` is not
elided after an off command even if `bri: 200` was cached before it. -/
theorem dedup_mode_invalidation (cache : PDict) (hn : AKeysNodup cache)
    (hct : aget cache "ct" = some (Value.int 300))
    (hbri : aget cache "bri" = some (Value.int 200)) :
    (aget (set_light_optimize_params cache
        [("hue", Value.int 100), ("sat", Value.int 50)]).1 "ct" = none ∧
     aget (set_light_optimize_params cache
        [("hue", Value.int 100), ("sat", Value.int 50)]).1 "xy" = none ∧
     (set_light_optimize_params
        (set_light_optimize_params cache
          [("hue", Value.int 100), ("sat", Value.int 50)]).1
        [("ct", Value.int 300)]).2 = [("ct", Value.int 300)]) ∧
    (aget (set_light_optimize_params cache [("on", Value.bool false)]).1 "bri"
        = none ∧
     aget (set_light_optimize_params
        (set_light_optimize_params cache [("on", Value.bool false)]).1
        [("on", Value.bool true), ("bri", Value.int 200)]).2 "bri"
        = some (Value.int 200)) ∧
    (∀ (c : PDict) (v : Value), AKeysNodup c →
      aget (set_light_optimize_params c [("hue", v)]).1 "xy" = none ∧
      aget (set_light_optimize_params c [("hue", v)]).1 "ct" = none) ∧
    (∀ (c : PDict) (v : Value), AKeysNodup c →
      aget (set_light_optimize_params c [("xy", v)]).1 "hue" = none ∧
      aget (set_light_optimize_params c [("xy", v)]).1 "sat" = none ∧
      aget (set_light_optimize_params c [("xy", v)]).1 "ct" = none) ∧
    (∀ (c : PDict) (v : Value), AKeysNodup c →
      aget (set_light_optimize_params c [("ct", v)]).1 "hue" = none ∧
      aget (set_light_optimize_params c [("ct", v)]).1 "sat" = none ∧
      aget (set_light_optimize_params c [("ct", v)]).1 "xy" = none) ∧
    (∀ c : PDict, AKeysNodup c →
      aget (set_light_optimize_params c [("on", Value.bool false)]).1 "bri"
        = none) := by
  have hc1 : (set_light_optimize_params cache
      [("hue", Value.int 100), ("sat", Value.int 50)]).1
      = aset (apop (apop (aset (apop (apop cache "xy") "ct") "hue"
          (Value.int 100)) "xy") "ct") "sat" (Value.int 50) := by
    show (optimize_step (optimize_step (cache, _) _) _).1 = _
    rw [optimize_step_fst, optimize_step_fst]
    simp only [invalidate_state_hue, invalidate_state_sat]
  have hcA : AKeysNodup (aset (apop (apop cache "xy") "ct") "hue"
      (Value.int 100)) :=
    nodup_aset _ _ _ (nodup_apop _ _ (nodup_apop _ _ hn))
  have hct_none : aget (set_light_optimize_params cache
      [("hue", Value.int 100), ("sat", Value.int 50)]).1 "ct" = none := by
    rw [hc1, aget_aset_ne _ _ (by decide)]
    exact aget_apop_self _ _ (nodup_apop _ _ hcA)
  have hxy_none : aget (set_light_optimize_params cache
      [("hue", Value.int 100), ("sat", Value.int 50)]).1 "xy" = none := by
    rw [hc1, aget_aset_ne _ _ (by decide), aget_apop_ne _ (by decide)]
    exact aget_apop_self _ _ hcA
  have hc2 : (set_light_optimize_params cache [("on", Value.bool false)]).1
      = aset (apop cache "bri") "on" (Value.bool false) := by
    show (optimize_step (cache, _) _).1 = _
    rw [optimize_step_fst]
    simp only [invalidate_state_on_false _ _ (by decide : truthy (Value.bool false) = false)]
  have hb_none : aget (set_light_optimize_params cache
      [("on", Value.bool false)]).1 "bri" = none := by
    rw [hc2, aget_aset_ne _ _ (by decide)]
    exact aget_apop_self _ _ hn
  refine ⟨⟨hct_none, hxy_none, ?_⟩, ⟨hb_none, ?_⟩, ?_, ?_, ?_, ?_⟩
  · -- a subsequent {ct: 300} write is not elided
    show (optimize_step (_, _) ("ct", Value.int 300)).2 = _
    rw [optimize_step_snd]
    unfold elide_param
    rw [invalidate_state_ct, aget_apop_ne _ (by decide),
      aget_apop_ne _ (by decide), aget_apop_ne _ (by decide), hct_none]
  · -- a subsequent {on: true, bri: 200} write keeps bri
    show aget (optimize_step (optimize_step (_, _) ("on", Value.bool true))
        ("bri", Value.int 200)).2 "bri" = _
    have s1 : optimize_step ((set_light_optimize_params cache
        [("on", Value.bool false)]).1,
          [("on", Value.bool true), ("bri", Value.int 200)])
        ("on", Value.bool true)
        = (aset (set_light_optimize_params cache [("on", Value.bool false)]).1
            "on" (Value.bool true),
           [("on", Value.bool true), ("bri", Value.int 200)]) := by
      rw [optimize_step]
      simp only [invalidate_state_on_true _ _
        (by decide : truthy (Value.bool true) = true)]
      unfold elide_param
      rw [hc2, aget_aset_self]
      norm_num [veq, vnum]
    rw [s1, optimize_step_snd]
    unfold elide_param
    rw [invalidate_state_bri, aget_aset_ne _ _ (by decide), hb_none]
    norm_num +decide [aget]
  · -- hue write evicts xy and ct
    intro c v hcn
    have e : (set_light_optimize_params c [("hue", v)]).1
        = aset (apop (apop c "xy") "ct") "hue" v := by
      show (optimize_step (c, _) _).1 = _
      rw [optimize_step_fst]
      simp only [invalidate_state_hue]
    constructor
    · rw [e, aget_aset_ne _ _ (by decide), aget_apop_ne _ (by decide)]
      exact aget_apop_self _ _ hcn
    · rw [e, aget_aset_ne _ _ (by decide)]
      exact aget_apop_self _ _ (nodup_apop _ _ hcn)
  · -- xy write evicts hue, sat and ct
    intro c v hcn
    have e : (set_light_optimize_params c [("xy", v)]).1
        = aset (apop (apop (apop c "hue") "sat") "ct") "xy" v := by
      show (optimize_step (c, _) _).1 = _
      rw [optimize_step_fst]
      simp only [invalidate_state_xy]
    refine ⟨?_, ?_, ?_⟩
    · rw [e, aget_aset_ne _ _ (by decide), aget_apop_ne _ (by decide),
        aget_apop_ne _ (by decide)]
      exact aget_apop_self _ _ hcn
    · rw [e, aget_aset_ne _ _ (by decide), aget_apop_ne _ (by decide)]
      exact aget_apop_self _ _ (nodup_apop _ _ hcn)
    · rw [e, aget_aset_ne _ _ (by decide)]
      exact aget_apop_self _ _ (nodup_apop _ _ (nodup_apop _ _ hcn))
  · -- ct write evicts hue, sat and xy
    intro c v hcn
    have e : (set_light_optimize_params c [("ct", v)]).1
        = aset (apop (apop (apop c "hue") "sat") "xy") "ct" v := by
      show (optimize_step (c, _) _).1 = _
      rw [optimize_step_fst]
      simp only [invalidate_state_ct]
    refine ⟨?_, ?_, ?_⟩
    · rw [e, aget_aset_ne _ _ (by decide), aget_apop_ne _ (by decide),
        aget_apop_ne _ (by decide)]
      exact aget_apop_self _ _ hcn
    · rw [e, aget_aset_ne _ _ (by decide), aget_apop_ne _ (by decide)]
      exact aget_apop_self _ _ (nodup_apop _ _ hcn)
    · rw [e, aget_aset_ne _ _ (by decide)]
      exact aget_apop_self _ _ (nodup_apop _ _ (nodup_apop _ _ hcn))
  · -- off command evicts bri
    intro c hcn
    have e : (set_light_optimize_params c [("on", Value.bool false)]).1
        = aset (apop c "bri") "on" (Value.bool false) := by
      show (optimize_step (c, _) _).1 = _
      rw [optimize_step_fst]
      simp only [invalidate_state_on_false _ _
        (by decide : truthy (Value.bool false) = false)]
    rw [e, aget_aset_ne _ _ (by decide)]
    exact aget_apop_self _ _ hcn

/-- Witness for C2 at the concrete cache `{ct: 300, bri: 200}`. -/
theorem dedup_mode_invalidation_witness :
    (set_light_optimize_params
      (set_light_optimize_params [("ct", Value.int 300), ("bri", Value.int 200)]
        [("hue", Value.int 100), ("sat", Value.int 50)]).1
      [("ct", Value.int 300)]).2 = [("ct", Value.int 300)] ∧
    aget (set_light_optimize_params
      (set_light_optimize_params [("ct", Value.int 300), ("bri", Value.int 200)]
        [("on", Value.bool false)]).1
      [("on", Value.bool true), ("bri", Value.int 200)]).2 "bri"
      = some (Value.int 200) :=
  ⟨(dedup_mode_invalidation [("ct", Value.int 300), ("bri", Value.int 200)]
      (by decide) (by decide) (by decide)).1.2.2,
   (dedup_mode_invalidation [("ct", Value.int 300), ("bri", Value.int 200)]
      (by decide) (by decide) (by decide)).2.1.2⟩

/-! ## Claim C8 -/

/-- One collection step for a different light leaves a light's entry
unchanged. -/
theorem collect_step_other (getLight : ℕ → PDict) (b : Bool)
    (st : AList ℕ PDict) (l light : ℕ) (h : l ≠ light) :
    aget (collect_step getLight b st l) light = aget st light := by
  simp only [collect_step]
  have hne : light ≠ l := fun he => h he.symm
  repeat' split
  all_goals first | rw [aget_aset_ne _ _ hne] | rfl

/-- A light that reports unreachable keeps whatever snapshot entry it
already has, through any number of collection steps. -/
theorem collect_keeps_entry_of_unreachable (getLight : ℕ → PDict) (light : ℕ)
    (hunreach : truthy (agetD (getLight light) "reachable" (.bool false)) = false) :
    ∀ (ids : List ℕ) (prev : AList ℕ PDict) (b : Bool) (st : PDict),
      aget prev light = some st →
      aget (collect_light_states getLight ids prev b) light = some st := by
  intro ids
  induction ids with
  | nil => intro prev b st h; exact h
  | cons l rest ih =>
    intro prev b st h
    show aget (collect_light_states getLight rest
      (collect_step getLight b prev l) b) light = some st
    refine ih _ b st ?_
    by_cases hl : l = light
    · subst hl
      simp only [collect_step]
      rw [if_neg (by simp [hunreach]), if_pos (by simp [amem, h])]
      exact h
    · rw [collect_step_other _ _ _ _ _ hl]
      exact h

/-- C8 counterexample: a light that reports unreachable and has NO entry in
the previous snapshot is NOT omitted — `collect_light_states` records its
reported state (`state[light] = light_state`, "recording last known state"),
contradicting the claim that it is omitted from the returned snapshot. -/
theorem collect_unreachable_unknown_recorded :
    aget (collect_light_states
      (fun _ => [("reachable", Value.bool false), ("on", Value.bool true),
                 ("bri", Value.int 50)])
      [1] [] true) 1
    = some [("reachable", Value.bool false), ("on", Value.bool true),
            ("bri", Value.int 50)] := by
  decide

/-- A light that reports unreachable and has no snapshot entry yet gets its
reported state recorded at its first occurrence in the id list. -/
theorem collect_records_unknown_unreachable (getLight : ℕ → PDict) (light : ℕ)
    (hunreach : truthy (agetD (getLight light) "reachable" (.bool false)) = false) :
    ∀ (ids : List ℕ) (prev : AList ℕ PDict) (b : Bool),
      aget prev light = none → light ∈ ids →
      aget (collect_light_states getLight ids prev b) light
        = some (getLight light) := by
  intro ids
  induction ids with
  | nil => intro prev b _ hmem; cases hmem
  | cons l rest ih =>
    intro prev b hnone hmem
    show aget (collect_light_states getLight rest
      (collect_step getLight b prev l) b) light = some (getLight light)
    by_cases hl : l = light
    · subst hl
      have hset : aget (collect_step getLight b prev l) l
          = some (getLight l) := by
        simp only [collect_step]
        rw [if_neg (by simp [hunreach]), if_neg (by simp [amem, hnone]),
          aget_aset_self]
      exact collect_keeps_entry_of_unreachable getLight l hunreach rest _ b _ hset
    · have hmem' : light ∈ rest := by
        cases hmem with
        | head => exact absurd rfl hl
        | tail _ hm => exact hm
      refine ih _ b ?_ hmem'
      rw [collect_step_other _ _ _ _ _ hl]
      exact hnone

/-- C8 amended: for an unreachable light, `collect_light_states` keeps an
existing snapshot entry unchanged, and when no entry exists it records the
light's currently reported state (rather than omitting the light). -/
theorem collect_unreachable_amended (getLight : ℕ → PDict) (ids : List ℕ)
    (prev : AList ℕ PDict) (b : Bool) (light : ℕ)
    (hunreach : truthy (agetD (getLight light) "reachable" (.bool false)) = false) :
    (∀ st : PDict, aget prev light = some st →
      aget (collect_light_states getLight ids prev b) light = some st) ∧
    (aget prev light = none → light ∈ ids →
      aget (collect_light_states getLight ids prev b) light
        = some (getLight light)) := by
  constructor
  · intro st h
    exact collect_keeps_entry_of_unreachable getLight light hunreach ids prev b st h
  · intro hnone hmem
    exact collect_records_unknown_unreachable getLight light hunreach ids prev b
      hnone hmem

/-- Witness for the amended C8: an unreachable light keeps its old entry,
and an unknown unreachable light is recorded. -/
theorem collect_unreachable_amended_witness :
    aget (collect_light_states (fun _ => [("reachable", Value.bool false)])
      [1] [(1, [("on", Value.bool true)])] true) 1
      = some [("on", Value.bool true)] ∧
    aget (collect_light_states (fun _ => [("reachable", Value.bool false)])
      [2] [] false) 2
      = some [("reachable", Value.bool false)] :=
  ⟨(collect_unreachable_amended (fun _ => [("reachable", Value.bool false)])
      [1] [(1, [("on", Value.bool true)])] true 1 (by decide)).1
      [("on", Value.bool true)] (by decide),
   (collect_unreachable_amended (fun _ => [("reachable", Value.bool false)])
      [2] [] false 2 (by decide)).2 (by decide) (by decide)⟩

/-! ## Claim C9 -/

/-- Full translation leaves every key other than `inc`, `bri`, `ctk`, `ct`
and `xy` untouched. -/
theorem aget_translate_extensions_ne (p : PDict) (k : String)
    (h1 : k ≠ "inc") (h2 : k ≠ "bri") (h3 : k ≠ "ctk") (h4 : k ≠ "ct")
    (h5 : k ≠ "xy") :
    aget (set_light_translate_extensions p) k = aget p k := by
  unfold set_light_translate_extensions
  rw [aget_translate_ctk_ne _ _ h3 h5, aget_translate_ct_ne _ _ h4 h3,
    aget_translate_inc_ne _ _ h1 h2 h3]

/-- Full translation never introduces a `ct` key. -/
theorem translate_ct_none (p : PDict) (h : aget p "ct" = none) :
    aget (set_light_translate_extensions p) "ct" = none := by
  unfold set_light_translate_extensions
  rw [aget_translate_ctk_ne _ _ (by decide) (by decide)]
  have h1 : aget (translate_inc p) "ct" = none := by
    rw [aget_translate_inc_ne _ _ (by decide) (by decide) (by decide)]
    exact h
  unfold translate_ct
  rw [if_neg (by simp [amem, h1] : ¬ (amem (translate_inc p) "ct" = true))]
  exact h1

theorem drop_inactive_hs (state ns : PDict)
    (h : aget state "colormode" = some (Value.str "hs")) :
    drop_inactive_modes state ns = apop (apop ns "ct") "xy" := by
  unfold drop_inactive_modes
  rw [if_pos (by simp [amem, h] : amem state "colormode" = true), h]
  rw [if_pos (by decide)]

theorem drop_inactive_ct (state ns : PDict)
    (h : aget state "colormode" = some (Value.str "ct")) :
    drop_inactive_modes state ns = apop (apop (apop ns "hue") "sat") "xy" := by
  unfold drop_inactive_modes
  rw [if_pos (by simp [amem, h] : amem state "colormode" = true), h]
  rw [if_neg (by decide), if_pos (by decide)]

theorem drop_inactive_xy (state ns : PDict)
    (h : aget state "colormode" = some (Value.str "xy")) :
    drop_inactive_modes state ns = apop (apop (apop ns "ct") "hue") "sat" := by
  unfold drop_inactive_modes
  rw [if_pos (by simp [amem, h] : amem state "colormode" = true), h]
  rw [if_neg (by decide), if_neg (by decide), if_pos (by decide)]

theorem drop_inactive_other (state ns : PDict) (k : String)
    (h1 : k ≠ "ct") (h2 : k ≠ "xy") (h3 : k ≠ "hue") (h4 : k ≠ "sat") :
    aget (drop_inactive_modes state ns) k = aget ns k := by
  simp only [drop_inactive_modes]
  repeat' split
  all_goals first
    | rfl
    | rw [aget_apop_ne _ h2, aget_apop_ne _ h1]
    | rw [aget_apop_ne _ h2, aget_apop_ne _ h4, aget_apop_ne _ h3]
    | rw [aget_apop_ne _ h4, aget_apop_ne _ h3, aget_apop_ne _ h1]

theorem nodup_drop_inactive (state ns : PDict) (hn : AKeysNodup ns) :
    AKeysNodup (drop_inactive_modes state ns) := by
  simp only [drop_inactive_modes]
  repeat' split
  all_goals first
    | exact hn
    | exact nodup_apop _ _ (nodup_apop _ _ hn)
    | exact nodup_apop _ _ (nodup_apop _ _ (nodup_apop _ _ hn))

/-- C9 counterexample: `normalized_light_state` does NOT drop color keys
when the captured state has the light off — with `on: false` and colormode
`hs`, the `hue` key survives normalization, contradicting clause (3) of the
claim. -/
theorem normalize_keeps_color_when_off :
    aget (normalized_light_state
      [("on", Value.bool false), ("colormode", Value.str "hs"),
       ("hue", Value.int 5), ("sat", Value.int 10),
       ("reachable", Value.bool true)]) "hue" = some (Value.int 5) := by
  decide

/-- C9 amended: `normalized_light_state` drops the read-only/meta fields
(`colormode`, `reachable`, `mode`) and the keys of the color representations
other than the state's active colormode; the light being off causes no
additional key removal.  `restore_light_states` sends the normalized state
(run through the extension translator), so for a state in `xy` mode the
parameters sent contain no `hue`, `sat` or `ct`. -/
theorem normalize_amended (s : PDict) (hn : AKeysNodup s) :
    (aget (normalized_light_state s) "colormode" = none ∧
     aget (normalized_light_state s) "reachable" = none ∧
     aget (normalized_light_state s) "mode" = none) ∧
    (aget s "colormode" = some (Value.str "hs") →
      aget (normalized_light_state s) "ct" = none ∧
      aget (normalized_light_state s) "xy" = none) ∧
    (aget s "colormode" = some (Value.str "ct") →
      aget (normalized_light_state s) "hue" = none ∧
      aget (normalized_light_state s) "sat" = none ∧
      aget (normalized_light_state s) "xy" = none) ∧
    (aget s "colormode" = some (Value.str "xy") →
      aget (normalized_light_state s) "ct" = none ∧
      aget (normalized_light_state s) "hue" = none ∧
      aget (normalized_light_state s) "sat" = none) ∧
    (aget s "colormode" = some (Value.str "xy") →
      aget (restore_sent_params s) "ct" = none ∧
      aget (restore_sent_params s) "hue" = none ∧
      aget (restore_sent_params s) "sat" = none) := by
  have hns1n : AKeysNodup (apop s "mode") := nodup_apop _ _ hn
  have hdn : AKeysNodup (drop_inactive_modes s (apop s "mode")) :=
    nodup_drop_inactive s _ hns1n
  have exy : aget s "colormode" = some (Value.str "xy") →
      normalized_light_state s
        = apop (apop (apop (apop (apop (apop s "mode") "ct") "hue") "sat")
            "colormode") "reachable" := by
    intro hcm
    unfold normalized_light_state
    rw [drop_inactive_xy _ _ hcm]
  have hxy_case : aget s "colormode" = some (Value.str "xy") →
      aget (normalized_light_state s) "ct" = none ∧
      aget (normalized_light_state s) "hue" = none ∧
      aget (normalized_light_state s) "sat" = none := by
    intro hcm
    rw [exy hcm]
    refine ⟨?_, ?_, ?_⟩
    · rw [aget_apop_ne _ (by decide), aget_apop_ne _ (by decide),
        aget_apop_ne _ (by decide), aget_apop_ne _ (by decide)]
      exact aget_apop_self _ _ hns1n
    · rw [aget_apop_ne _ (by decide), aget_apop_ne _ (by decide),
        aget_apop_ne _ (by decide)]
      exact aget_apop_self _ _ (nodup_apop _ _ hns1n)
    · rw [aget_apop_ne _ (by decide), aget_apop_ne _ (by decide)]
      exact aget_apop_self _ _ (nodup_apop _ _ (nodup_apop _ _ hns1n))
  refine ⟨⟨?_, ?_, ?_⟩, ?_, ?_, hxy_case, ?_⟩
  · show aget (apop (apop _ "colormode") "reachable") "colormode" = none
    rw [aget_apop_ne _ (by decide)]
    exact aget_apop_self _ _ hdn
  · exact aget_apop_self _ _ (nodup_apop _ _ hdn)
  · show aget (apop (apop _ "colormode") "reachable") "mode" = none
    rw [aget_apop_ne _ (by decide), aget_apop_ne _ (by decide),
      drop_inactive_other _ _ _ (by decide) (by decide) (by decide) (by decide)]
    exact aget_apop_self _ _ hn
  · -- hs mode drops ct and xy
    intro hcm
    have e : normalized_light_state s
        = apop (apop (apop (apop (apop s "mode") "ct") "xy") "colormode")
            "reachable" := by
      unfold normalized_light_state
      rw [drop_inactive_hs _ _ hcm]
    rw [e]
    constructor
    · rw [aget_apop_ne _ (by decide), aget_apop_ne _ (by decide),
        aget_apop_ne _ (by decide)]
      exact aget_apop_self _ _ hns1n
    · rw [aget_apop_ne _ (by decide), aget_apop_ne _ (by decide)]
      exact aget_apop_self _ _ (nodup_apop _ _ hns1n)
  · -- ct mode drops hue, sat and xy
    intro hcm
    have e : normalized_light_state s
        = apop (apop (apop (apop (apop (apop s "mode") "hue") "sat") "xy")
            "colormode") "reachable" := by
      unfold normalized_light_state
      rw [drop_inactive_ct _ _ hcm]
    rw [e]
    refine ⟨?_, ?_, ?_⟩
    · rw [aget_apop_ne _ (by decide), aget_apop_ne _ (by decide),
        aget_apop_ne _ (by decide), aget_apop_ne _ (by decide)]
      exact aget_apop_self _ _ hns1n
    · rw [aget_apop_ne _ (by decide), aget_apop_ne _ (by decide),
        aget_apop_ne _ (by decide)]
      exact aget_apop_self _ _ (nodup_apop _ _ hns1n)
    · rw [aget_apop_ne _ (by decide), aget_apop_ne _ (by decide)]
      exact aget_apop_self _ _ (nodup_apop _ _ (nodup_apop _ _ hns1n))
  · -- restore in xy mode sends no ct/hue/sat
    intro hcm
    obtain ⟨hct2, hhue2, hsat2⟩ := hxy_case hcm
    refine ⟨?_, ?_, ?_⟩
    · exact translate_ct_none _ hct2
    · rw [restore_sent_params, aget_translate_extensions_ne _ _ (by decide)
        (by decide) (by decide) (by decide) (by decide)]
      exact hhue2
    · rw [restore_sent_params, aget_translate_extensions_ne _ _ (by decide)
        (by decide) (by decide) (by decide) (by decide)]
      exact hsat2

/-- Witness for the amended C9 at a concrete captured state in `xy` mode. -/
theorem normalize_amended_witness :
    aget (normalized_light_state
      [("on", Value.bool true), ("colormode", Value.str "xy"),
       ("ct", Value.int 200), ("hue", Value.int 1), ("sat", Value.int 2),
       ("reachable", Value.bool true), ("mode", Value.str "homeautomation")])
      "reachable" = none ∧
    aget (normalized_light_state
      [("on", Value.bool true), ("colormode", Value.str "xy"),
       ("ct", Value.int 200), ("hue", Value.int 1), ("sat", Value.int 2),
       ("reachable", Value.bool true), ("mode", Value.str "homeautomation")])
      "ct" = none ∧
    aget (restore_sent_params
      [("on", Value.bool true), ("colormode", Value.str "xy"),
       ("ct", Value.int 200), ("hue", Value.int 1), ("sat", Value.int 2),
       ("reachable", Value.bool true), ("mode", Value.str "homeautomation")])
      "hue" = none :=
  ⟨(normalize_amended _ (by decide)).1.2.1,
   ((normalize_amended _ (by decide)).2.2.2.1 (by decide)).1,
   ((normalize_amended _ (by decide)).2.2.2.2 (by decide)).2.1⟩

/-! ## Last-write-wins merge helpers -/

/-- The value of the last write to key `k` in a list of `(key, value)`
events (the specification's "last-write-wins" value). -/
def lastWrite : List (String × Value) → String → Option Value
  | [], _ => none
  | e :: rest, k =>
    match lastWrite rest k with
    | some v => some v
    | none => if e.1 = k then some e.2 else none

/-- Folding writes into a dict leaves keys without a write unchanged. -/
theorem foldl_aset_no_write (k : String) :
    ∀ (events : List (String × Value)) (pend : PDict),
      lastWrite events k = none →
      aget (events.foldl (fun d e => aset d e.1 e.2) pend) k = aget pend k := by
  intro events
  induction events with
  | nil => intro pend _; rfl
  | cons e rest ih =>
    intro pend hlw
    have hrest : lastWrite rest k = none := by
      unfold lastWrite at hlw
      cases h : lastWrite rest k with
      | none => rfl
      | some v => rw [h] at hlw; cases hlw
    have hne : ¬ (e.1 = k) := by
      unfold lastWrite at hlw
      rw [hrest] at hlw
      intro he
      rw [if_pos he] at hlw
      cases hlw
    rw [List.foldl_cons, ih _ hrest, aget_aset_ne _ _ (fun h => hne h.symm)]

/-- Folding writes into a dict realizes last-write-wins per key. -/
theorem foldl_aset_last_write (k : String) (v : Value) :
    ∀ (events : List (String × Value)) (pend : PDict),
      lastWrite events k = some v →
      aget (events.foldl (fun d e => aset d e.1 e.2) pend) k = some v := by
  intro events
  induction events with
  | nil => intro pend h; cases h
  | cons e rest ih =>
    intro pend hlw
    rw [List.foldl_cons]
    cases h : lastWrite rest k with
    | some w =>
      have : w = v := by
        unfold lastWrite at hlw
        rw [h] at hlw
        cases hlw
        rfl
      subst this
      exact ih _ h
    | none =>
      have he : e.1 = k ∧ e.2 = v := by
        unfold lastWrite at hlw
        rw [h] at hlw
        by_cases he1 : e.1 = k
        · rw [if_pos he1] at hlw
          cases hlw
          exact ⟨he1, rfl⟩
        · rw [if_neg he1] at hlw
          cases hlw
      rw [foldl_aset_no_write k rest _ h, he.1, he.2, aget_aset_self]

/-! ## Claim C6 -/

/-- The event schedule for the C6 shutdown-flush scenario: one pending
command each for lights 1 and 2, then the sentinel. -/
def c6_inputs : List QGet :=
  [.got (1/10) (some (1, "bri", Value.int 10)),
   .got (1/10) (some (2, "bri", Value.int 30)),
   .got (1/10) none]

/-- C6 counterexample: with pending commands for lights 1 and 2 at shutdown
and a bridge whose `set_light` raises for light 2, the worker thread dies on
light 2's dispatch (there is no exception handler in `BridgeUpdateThread`):
it never dispatches light 1's pending command, contradicting the claim that
a Gateway failure is logged and the worker proceeds to the remaining
targets. -/
theorem worker_gateway_failure_kills_thread :
    (runWorker (fun lid _ => decide (lid ≠ 2)) 0 c6_inputs).aborted = true ∧
    (runWorker (fun lid _ => decide (lid ≠ 2)) 0 c6_inputs).trace.filter
      (fun e => decide (e.1 = 1)) = [] ∧
    (runWorker (fun lid _ => decide (lid ≠ 2)) 0 c6_inputs).pending
      = [(1, [("bri", Value.int 10)])] := by
  refine ⟨?_, ?_, ?_⟩ <;>
    norm_num +decide [runWorker, workerMainLoop, runDispatchStep, updateBridge,
      waitTime, qmod, pendSet, aset, aget, MIN_BRIDGE_CMD_INTERVAL, workerFlush,
      workerFlushGo, workerInit, c6_inputs]

/-- The worker's trace never extends past a failed bridge call: every entry
but the last succeeded, and the trace ends exactly at the first failure. -/
def TraceStopsAtFailure (gw : ℕ → PDict → Bool) (s : WorkerState) : Prop :=
  (s.aborted = false → ∀ e ∈ s.trace, gw e.1 e.2.1 = true) ∧
  (s.aborted = true → ∃ pre last, s.trace = pre ++ [last] ∧
    (∀ e ∈ pre, gw e.1 e.2.1 = true) ∧ gw last.1 last.2.1 = false)

theorem traceStops_of_clean (gw : ℕ → PDict → Bool) (s : WorkerState)
    (hab : s.aborted = false) (hok : ∀ e ∈ s.trace, gw e.1 e.2.1 = true) :
    TraceStopsAtFailure gw s :=
  ⟨fun _ => hok, fun ha => by rw [hab] at ha; cases ha⟩

theorem updateBridge_traceStops (gw : ℕ → PDict → Bool) (s : WorkerState)
    (hab : s.aborted = false) (hok : ∀ e ∈ s.trace, gw e.1 e.2.1 = true) :
    TraceStopsAtFailure gw (updateBridge gw s).1 := by
  unfold updateBridge
  cases hl : s.pending.getLast? with
  | none => exact traceStops_of_clean gw s hab hok
  | some e =>
    obtain ⟨lid, cmd⟩ := e
    dsimp only
    have hnew : ∀ x ∈ s.trace ++ [(lid, cmd, s.now)],
        gw x.1 x.2.1 = true ∨ x = (lid, cmd, s.now) := by
      intro x hx
      rcases List.mem_append.mp hx with hx | hx
      · exact Or.inl (hok x hx)
      · exact Or.inr (List.mem_singleton.mp hx)
    by_cases hgw : gw lid cmd = true
    · rw [if_pos hgw]
      refine traceStops_of_clean gw _ hab ?_
      intro x hx
      rcases hnew x hx with h | h
      · exact h
      · rw [h]
        exact hgw
    · rw [if_neg hgw]
      constructor
      · intro hf
        cases hf
      · intro _
        refine ⟨s.trace, (lid, cmd, s.now), rfl, hok, ?_⟩
        simpa using hgw

theorem runDispatchStep_traceStops (gw : ℕ → PDict → Bool) (s : WorkerState)
    (hab : s.aborted = false) (hok : ∀ e ∈ s.trace, gw e.1 e.2.1 = true) :
    TraceStopsAtFailure gw (runDispatchStep gw s)
    ∧ ((runDispatchStep gw s).aborted = false →
        ∀ e ∈ (runDispatchStep gw s).trace, gw e.1 e.2.1 = true) := by
  have base := traceStops_of_clean gw s hab hok
  unfold runDispatchStep
  by_cases hdue : MIN_BRIDGE_CMD_INTERVAL ≤ s.now - s.lastUpdate
  · rw [if_pos hdue]
    have h1 := updateBridge_traceStops gw s hab hok
    cases hub : updateBridge gw s with
    | mk s' processed =>
      rw [hub] at h1
      cases processed with
      | true =>
        by_cases habs : s'.aborted = true
        · simp only [habs, if_pos]
          exact ⟨h1, fun hf => absurd hf (by decide)⟩
        · have habs' : s'.aborted = false := by simpa using habs
          simp only [habs', Bool.false_eq_true, if_false]
          have hclean := h1.1 habs'
          exact ⟨traceStops_of_clean gw _ rfl hclean, fun _ => hclean⟩
      | false => exact ⟨h1, fun h2 => h1.1 h2⟩
  · rw [if_neg hdue]
    exact ⟨base, fun _ => hok⟩

theorem workerMainLoop_traceStops (gw : ℕ → PDict → Bool) :
    ∀ (inputs : List QGet) (s : WorkerState), s.aborted = false →
      (∀ e ∈ s.trace, gw e.1 e.2.1 = true) →
      TraceStopsAtFailure gw (workerMainLoop gw s inputs).1
      ∧ ((workerMainLoop gw s inputs).2 = true →
          (workerMainLoop gw s inputs).1.aborted = false ∧
          ∀ e ∈ (workerMainLoop gw s inputs).1.trace, gw e.1 e.2.1 = true) := by
  intro inputs
  induction inputs with
  | nil =>
    intro s hab hok
    exact ⟨⟨fun _ => hok, fun ha => absurd (hab ▸ ha) (by simp)⟩,
      fun h => by cases h⟩
  | cons i rest ih =>
    intro s hab hok
    obtain ⟨hstop1, hok1⟩ := runDispatchStep_traceStops gw s hab hok
    by_cases habs : (runDispatchStep gw s).aborted = true
    · simp only [workerMainLoop, habs, if_pos]
      exact ⟨hstop1, fun h => by simp at h⟩
    · have habs' : (runDispatchStep gw s).aborted = false := by simpa using habs
      simp only [workerMainLoop, habs', Bool.false_eq_true, if_false]
      cases i with
      | timedOut => exact ih _ rfl (hok1 habs')
      | got d e =>
        cases e with
        | none =>
          exact ⟨traceStops_of_clean gw _ rfl (hok1 habs'),
            fun _ => ⟨rfl, hok1 habs'⟩⟩
        | some ev => exact ih _ rfl (hok1 habs')

theorem workerFlushGo_traceStops (gw : ℕ → PDict → Bool) :
    ∀ (fuel : ℕ) (s : WorkerState), s.aborted = false →
      (∀ e ∈ s.trace, gw e.1 e.2.1 = true) →
      TraceStopsAtFailure gw (workerFlushGo gw fuel s) := by
  intro fuel
  induction fuel with
  | zero =>
    intro s hab hok
    exact ⟨fun _ => hok, fun ha => absurd (hab ▸ ha) (by simp)⟩
  | succ n ih =>
    intro s hab hok
    have h1 := updateBridge_traceStops gw s hab hok
    show TraceStopsAtFailure gw
      (match updateBridge gw s with
        | (s', true) => if s'.aborted = true then s'
            else workerFlushGo gw n { s' with now := s'.now + MIN_BRIDGE_CMD_INTERVAL }
        | (s', false) => s')
    cases hub : updateBridge gw s with
    | mk s' processed =>
      rw [hub] at h1
      cases processed with
      | true =>
        by_cases habs : s'.aborted = true
        · simpa [habs] using h1
        · have habs' : s'.aborted = false := by simpa using habs
          simp only [habs', Bool.false_eq_true, if_false]
          exact ih _ rfl (h1.1 habs')
      | false => exact h1

/-- C6 amended: a Gateway failure during one target's dispatch terminates
the worker at that point: every bridge call before the failing one
succeeded, and when the worker ends aborted, its very last bridge call is
the failing one — no further target is dispatched after a failure. -/
theorem worker_gateway_failure_amended (gw : ℕ → PDict → Bool) (t0 : ℚ)
    (inputs : List QGet) :
    (∀ e ∈ (runWorker gw t0 inputs).trace.dropLast, gw e.1 e.2.1 = true) ∧
    ((runWorker gw t0 inputs).aborted = true →
      ∃ e, (runWorker gw t0 inputs).trace.getLast? = some e
        ∧ gw e.1 e.2.1 = false) := by
  have hstop : TraceStopsAtFailure gw (runWorker gw t0 inputs) := by
    unfold runWorker
    obtain ⟨h1, h2⟩ := workerMainLoop_traceStops gw inputs (workerInit t0) rfl
      (by intro e he; cases he)
    by_cases hs : (workerMainLoop gw (workerInit t0) inputs).2 = true
    · simp only [hs, if_pos]
      obtain ⟨hab, hok⟩ := h2 hs
      exact workerFlushGo_traceStops gw _ _ hab hok
    · have hs' : (workerMainLoop gw (workerInit t0) inputs).2 = false := by
        cases h : (workerMainLoop gw (workerInit t0) inputs).2
        · rfl
        · exact absurd h hs
      simpa [hs'] using h1
  constructor
  · intro e he
    by_cases hab : (runWorker gw t0 inputs).aborted = true
    · obtain ⟨pre, last, htr, hpre, _⟩ := hstop.2 hab
      rw [htr] at he
      rw [List.dropLast_concat] at he
      exact hpre e he
    · have hab' : (runWorker gw t0 inputs).aborted = false := by
        cases h : (runWorker gw t0 inputs).aborted
        · rfl
        · exact absurd h hab
      exact hstop.1 hab' e (List.dropLast_sublist _ |>.mem he)
  · intro hab
    obtain ⟨pre, last, htr, _, hlast⟩ := hstop.2 hab
    refine ⟨last, ?_, hlast⟩
    rw [htr, List.getLast?_concat]

/-- Witness for the amended C6 on the concrete failing scenario. -/
theorem worker_gateway_failure_amended_witness :
    ∃ e, (runWorker (fun lid _ => decide (lid ≠ 2)) 0 c6_inputs).trace.getLast?
        = some e ∧ (fun (lid : ℕ) (_ : PDict) => decide (lid ≠ 2)) e.1 e.2.1
        = false :=
  (worker_gateway_failure_amended (fun lid _ => decide (lid ≠ 2)) 0 c6_inputs).2
    (by norm_num +decide [runWorker, workerMainLoop, runDispatchStep,
      updateBridge, waitTime, qmod, pendSet, aset, aget,
      MIN_BRIDGE_CMD_INTERVAL, workerFlush, workerFlushGo, workerInit,
      c6_inputs])

/-! ## Claim C7, counterexample -/

/-- The event schedule of the C7 rate-violation scenario: a dispatch for
light 1 from the main loop at `t = 10.1`, a new event for light 1, then the
sentinel at `t = 10.3`; the shutdown flush dispatches light 1 again
immediately, only `0.2 s` after the previous dispatch. -/
def c7_inputs : List QGet :=
  [.got (1/10) (some (1, "bri", Value.int 10)),
   .got (1/10) (some (1, "bri", Value.int 20)),
   .got (1/10) none]

/-- C7 counterexample: in the window `[10.08, 10.33]` of length `W = 0.25`
spanning the transition into the post-sentinel flush, light 1 receives two
dispatches (at `10.1` and `10.3`), exceeding `ceil(W / min_interval) = 1`. -/
theorem worker_rate_bound_violated_at_flush :
    Int.ceil ((1/4 : ℚ) / MIN_BRIDGE_CMD_INTERVAL)
      < (windowCount (runWorker (fun _ _ => true) 10 c7_inputs) 1
          (252/25) (1/4) : ℤ) := by
  norm_num +decide [windowCount, dispatchTimes, runWorker, workerMainLoop,
    runDispatchStep, updateBridge, waitTime, qmod, pendSet, aset, aget,
    MIN_BRIDGE_CMD_INTERVAL, workerFlush, workerFlushGo, workerInit, c7_inputs]
  have h1 : ⌈(5 / 8 : ℚ)⌉ = (1 : ℤ) := by
    apply Int.ceil_eq_iff.mpr
    constructor <;> norm_num
  rw [h1]
  norm_num

/-! ## Claim C7, amended: the timing structure of the dispatch trace -/

/-- Consecutive elements of the list are at least `m` apart (stated as a
pairwise bound, which for an increasing list is equivalent). -/
def Spaced (m : ℚ) (l : List ℚ) : Prop :=
  List.Pairwise (fun a b => a + m ≤ b) l

/-- The dispatch-time list splits into two internally `m`-spaced runs (the
main loop's dispatches and the shutdown flush's dispatches); only the single
gap between the runs may be shorter than `m`. -/
def SplitSpaced (m : ℚ) (ts : List ℚ) : Prop :=
  ∃ u v, ts = u ++ v ∧ Spaced m u ∧ Spaced m v ∧ ∀ x ∈ u, ∀ y ∈ v, x ≤ y

theorem qmod_nonneg (a : ℚ) {b : ℚ} (hb : 0 < b) : 0 ≤ qmod a b := by
  unfold qmod
  have h1 : b * ⌊a / b⌋ ≤ b * (a / b) :=
    mul_le_mul_of_nonneg_left (Int.floor_le _) (le_of_lt hb)
  have h2 : b * (a / b) = a := by
    field_simp
  linarith

theorem qmod_lt (a : ℚ) {b : ℚ} (hb : 0 < b) : qmod a b < b := by
  unfold qmod
  have h1 : a / b < ⌊a / b⌋ + 1 := Int.lt_floor_add_one _
  have h2 : a < b * (⌊a / b⌋ + 1) := by
    have := mul_lt_mul_of_pos_left h1 hb
    rwa [mul_div_cancel₀ _ (ne_of_gt hb)] at this
  linarith [h2]

theorem waitTime_nonneg (s : WorkerState) : 0 ≤ waitTime s := by
  unfold waitTime
  have := qmod_lt (s.now - s.lastUpdate)
    (show (0 : ℚ) < MIN_BRIDGE_CMD_INTERVAL by norm_num [MIN_BRIDGE_CMD_INTERVAL])
  linarith

/-- The timing invariant of the worker's main loop: the clock is past the
last recorded dispatch time, the trace is `m`-spaced, and every trace time
is at most `last_update_time`. -/
structure WTimeInv (s : WorkerState) : Prop where
  hle : s.lastUpdate ≤ s.now
  hsp : Spaced MIN_BRIDGE_CMD_INTERVAL (traceTimes s)
  hlast : ∀ t ∈ traceTimes s, t ≤ s.lastUpdate

theorem traceTimes_append (s : WorkerState) (e : ℕ × PDict × ℚ)
    (s' : WorkerState) (h : s'.trace = s.trace ++ [e]) :
    traceTimes s' = traceTimes s ++ [e.2.2] := by
  unfold traceTimes
  rw [h, List.map_append]
  rfl

/-- `__update_bridge` does one of three things: nothing (no pending
command), a successful dispatch, or a dispatch on which the bridge raised. -/
theorem updateBridge_cases (gw : ℕ → PDict → Bool) (s : WorkerState) :
    (s.pending.getLast? = none ∧ updateBridge gw s = (s, false)) ∨
    (∃ lid cmd, s.pending.getLast? = some (lid, cmd) ∧ gw lid cmd = true ∧
      updateBridge gw s
        = ({ s with
              pending := s.pending.dropLast,
              trace := s.trace ++ [(lid, cmd, s.now)] }, true)) ∨
    (∃ lid cmd, s.pending.getLast? = some (lid, cmd) ∧ gw lid cmd = false ∧
      updateBridge gw s
        = ({ s with
              pending := s.pending.dropLast,
              trace := s.trace ++ [(lid, cmd, s.now)],
              aborted := true }, true)) := by
  unfold updateBridge
  cases hl : s.pending.getLast? with
  | none => exact Or.inl ⟨rfl, rfl⟩
  | some e =>
    obtain ⟨lid, cmd⟩ := e
    by_cases hgw : gw lid cmd = true
    · refine Or.inr (Or.inl ⟨lid, cmd, rfl, hgw, ?_⟩)
      dsimp only
      rw [if_pos hgw]
    · refine Or.inr (Or.inr ⟨lid, cmd, rfl, by simpa using hgw, ?_⟩)
      dsimp only
      rw [if_neg hgw]

/-- Dispatch check at the top of the main loop: the clock does not move, the
trace stays spaced and bounded by the clock, and on a non-aborting exit the
full timing invariant is maintained. -/
theorem runDispatchStep_timeInv (gw : ℕ → PDict → Bool) (s : WorkerState)
    (hab : s.aborted = false) (h : WTimeInv s) :
    (runDispatchStep gw s).now = s.now ∧
    Spaced MIN_BRIDGE_CMD_INTERVAL (traceTimes (runDispatchStep gw s)) ∧
    (∀ t ∈ traceTimes (runDispatchStep gw s), t ≤ s.now) ∧
    ((runDispatchStep gw s).aborted = false → WTimeInv (runDispatchStep gw s)) := by
  have hbound : ∀ t ∈ traceTimes s, t ≤ s.now := fun t ht =>
    le_trans (h.hlast t ht) h.hle
  by_cases hdue : MIN_BRIDGE_CMD_INTERVAL ≤ s.now - s.lastUpdate
  · have hsp' : Spaced MIN_BRIDGE_CMD_INTERVAL (traceTimes s ++ [s.now]) := by
      rw [Spaced, List.pairwise_append]
      refine ⟨h.hsp, List.pairwise_singleton _ _, ?_⟩
      intro x hx y hy
      rw [List.mem_singleton.mp hy]
      have := h.hlast x hx
      linarith
    have hb' : ∀ t ∈ traceTimes s ++ [s.now], t ≤ s.now := by
      intro t ht
      rcases List.mem_append.mp ht with ht | ht
      · exact hbound t ht
      · rcases List.mem_singleton.mp ht with rfl
        exact le_refl _
    rcases updateBridge_cases gw s with ⟨hl, hub⟩ | ⟨lid, cmd, hl, hgw, hub⟩
        | ⟨lid, cmd, hl, hgw, hub⟩
    · have hred : runDispatchStep gw s = s := by
        unfold runDispatchStep
        rw [if_pos hdue, hub]
      rw [hred]
      exact ⟨rfl, h.hsp, hbound, fun _ => h⟩
    · have hred : runDispatchStep gw s
          = { s with
                pending := s.pending.dropLast,
                trace := s.trace ++ [(lid, cmd, s.now)],
                lastUpdate := s.now } := by
        unfold runDispatchStep
        rw [if_pos hdue, hub]
        dsimp only
        simp only [hab, Bool.false_eq_true, if_false]
      have htr : traceTimes (runDispatchStep gw s) = traceTimes s ++ [s.now] := by
        rw [hred]
        show (s.trace ++ [(lid, cmd, s.now)]).map (fun e => e.2.2) = _
        rw [List.map_append]
        rfl
      refine ⟨by rw [hred], by rw [htr]; exact hsp', by rw [htr]; exact hb',
        fun _ => ?_⟩
      refine ⟨?_, by rw [htr]; exact hsp', ?_⟩
      · rw [hred]
      · rw [htr, hred]
        exact hb'
    · have hred : runDispatchStep gw s
          = { s with
                pending := s.pending.dropLast,
                trace := s.trace ++ [(lid, cmd, s.now)],
                aborted := true } := by
        unfold runDispatchStep
        rw [if_pos hdue, hub]
        dsimp only
        rw [if_pos rfl]
      have htr : traceTimes (runDispatchStep gw s) = traceTimes s ++ [s.now] := by
        rw [hred]
        show (s.trace ++ [(lid, cmd, s.now)]).map (fun e => e.2.2) = _
        rw [List.map_append]
        rfl
      refine ⟨by rw [hred], by rw [htr]; exact hsp', by rw [htr]; exact hb',
        fun habs => ?_⟩
      rw [hred] at habs
      cases habs
  · have hred : runDispatchStep gw s = s := by
      unfold runDispatchStep
      rw [if_neg hdue]
    rw [hred]
    exact ⟨rfl, h.hsp, hbound, fun _ => h⟩

/-- Through the main loop, the dispatch trace stays `m`-spaced and bounded by
the current clock. -/
theorem workerMainLoop_timeInv (gw : ℕ → PDict → Bool) :
    ∀ (inputs : List QGet) (s : WorkerState), s.aborted = false → WTimeInv s →
      DelaysNonneg inputs →
      Spaced MIN_BRIDGE_CMD_INTERVAL (traceTimes (workerMainLoop gw s inputs).1) ∧
      (∀ t ∈ traceTimes (workerMainLoop gw s inputs).1,
        t ≤ (workerMainLoop gw s inputs).1.now) := by
  intro inputs
  induction inputs with
  | nil =>
    intro s _ h _
    exact ⟨h.hsp, fun t ht => le_trans (h.hlast t ht) h.hle⟩
  | cons i rest ih =>
    intro s hab h hd
    obtain ⟨hnow, hsp1, hb1, hcont⟩ := runDispatchStep_timeInv gw s hab h
    have hd' : DelaysNonneg rest := fun x hx => hd x (List.mem_cons_of_mem _ hx)
    by_cases habs : (runDispatchStep gw s).aborted = true
    · simp only [workerMainLoop, habs, if_pos]
      refine ⟨hsp1, fun t ht => ?_⟩
      rw [hnow]
      exact hb1 t ht
    · have habs' : (runDispatchStep gw s).aborted = false := by simpa using habs
      have hinv1 := hcont habs'
      simp only [workerMainLoop, habs', Bool.false_eq_true, if_false]
      cases i with
      | timedOut =>
        apply ih _ rfl ?_ hd'
        refine ⟨?_, hinv1.hsp, hinv1.hlast⟩
        have := waitTime_nonneg (runDispatchStep gw s)
        have := hinv1.hle
        show (runDispatchStep gw s).lastUpdate
          ≤ (runDispatchStep gw s).now + waitTime (runDispatchStep gw s)
        linarith
      | got d e =>
        have hdnn : 0 ≤ d := hd (QGet.got d e) (List.mem_cons_self _ _)
        cases e with
        | none =>
          refine ⟨hinv1.hsp, fun t ht => ?_⟩
          have h1 := hinv1.hlast t ht
          have h2 := hinv1.hle
          show t ≤ (runDispatchStep gw s).now + d
          linarith
        | some ev =>
          obtain ⟨lid, p, v⟩ := ev
          apply ih _ rfl ?_ hd'
          refine ⟨?_, hinv1.hsp, hinv1.hlast⟩
          have := hinv1.hle
          show (runDispatchStep gw s).lastUpdate ≤ (runDispatchStep gw s).now + d
          linarith

/-- The shutdown flush appends an `m`-spaced suffix of dispatch times, all
at or after the clock at flush entry. -/
theorem workerFlushGo_spaced (gw : ℕ → PDict → Bool) :
    ∀ (fuel : ℕ) (s : WorkerState), s.aborted = false →
      ∃ v, traceTimes (workerFlushGo gw fuel s) = traceTimes s ++ v ∧
        Spaced MIN_BRIDGE_CMD_INTERVAL v ∧ ∀ y ∈ v, s.now ≤ y := by
  intro fuel
  induction fuel with
  | zero =>
    intro s _
    exact ⟨[], by simp [workerFlushGo], List.Pairwise.nil,
      fun y hy => by cases hy⟩
  | succ n ih =>
    intro s hab
    rcases updateBridge_cases gw s with ⟨hl, hub⟩ | ⟨lid, cmd, hl, hgw, hub⟩
        | ⟨lid, cmd, hl, hgw, hub⟩
    · have hred : workerFlushGo gw (n + 1) s = s := by
        simp only [workerFlushGo]
        rw [hub]
      exact ⟨[], by rw [hred]; simp, List.Pairwise.nil, fun y hy => by cases hy⟩
    · have hred : workerFlushGo gw (n + 1) s
          = workerFlushGo gw n
              { s with
                  pending := s.pending.dropLast,
                  trace := s.trace ++ [(lid, cmd, s.now)],
                  now := s.now + MIN_BRIDGE_CMD_INTERVAL } := by
        simp only [workerFlushGo]
        rw [hub]
        dsimp only
        simp only [hab, Bool.false_eq_true, if_false]
      obtain ⟨v', hv', hsv', hge'⟩ := ih
        { s with
            pending := s.pending.dropLast,
            trace := s.trace ++ [(lid, cmd, s.now)],
            now := s.now + MIN_BRIDGE_CMD_INTERVAL } hab
      have htr2 : traceTimes ({ s with
          pending := s.pending.dropLast,
          trace := s.trace ++ [(lid, cmd, s.now)],
          now := s.now + MIN_BRIDGE_CMD_INTERVAL } : WorkerState)
          = traceTimes s ++ [s.now] := by
        show (s.trace ++ [(lid, cmd, s.now)]).map (fun e => e.2.2) = _
        rw [List.map_append]
        rfl
      refine ⟨s.now :: v', ?_, ?_, ?_⟩
      · rw [hred, hv', htr2, List.append_assoc]
        rfl
      · rw [Spaced, List.pairwise_cons]
        refine ⟨fun y hy => ?_, hsv'⟩
        exact hge' y hy
      · intro y hy
        rcases List.mem_cons.mp hy with rfl | hy
        · exact le_refl _
        · have h2 : s.now + MIN_BRIDGE_CMD_INTERVAL ≤ y := hge' y hy
          have hmpos : (0 : ℚ) < MIN_BRIDGE_CMD_INTERVAL := by
            norm_num [MIN_BRIDGE_CMD_INTERVAL]
          show s.now ≤ y
          linarith
    · have hred : workerFlushGo gw (n + 1) s
          = { s with
                pending := s.pending.dropLast,
                trace := s.trace ++ [(lid, cmd, s.now)],
                aborted := true } := by
        simp only [workerFlushGo]
        rw [hub]
        dsimp only
        rw [if_pos rfl]
      refine ⟨[s.now], ?_, List.pairwise_singleton _ _, ?_⟩
      · rw [hred]
        show (s.trace ++ [(lid, cmd, s.now)]).map (fun e => e.2.2) = _
        rw [List.map_append]
        rfl
      · intro y hy
        rcases List.mem_singleton.mp hy with rfl
        exact le_refl _

/-- The full dispatch-time list of a worker run splits into two `m`-spaced
runs: the main loop's dispatches followed by the shutdown flush's. -/
theorem runWorker_splitSpaced (gw : ℕ → PDict → Bool) (t0 : ℚ)
    (inputs : List QGet) (ht0 : 0 ≤ t0) (hd : DelaysNonneg inputs) :
    SplitSpaced MIN_BRIDGE_CMD_INTERVAL (traceTimes (runWorker gw t0 inputs)) := by
  have hinv0 : WTimeInv (workerInit t0) :=
    ⟨ht0, List.Pairwise.nil, fun t ht => by cases ht⟩
  obtain ⟨hsp, hb⟩ := workerMainLoop_timeInv gw inputs (workerInit t0) rfl hinv0 hd
  unfold runWorker
  by_cases hs : (workerMainLoop gw (workerInit t0) inputs).2 = true
  · simp only [hs, if_pos]
    have hab1 : (workerMainLoop gw (workerInit t0) inputs).1.aborted = false :=
      ((workerMainLoop_traceStops gw inputs (workerInit t0) rfl
        (fun e he => by cases he)).2 hs).1
    obtain ⟨v, hv, hsv, hge⟩ := workerFlushGo_spaced gw
      (workerMainLoop gw (workerInit t0) inputs).1.pending.length
      (workerMainLoop gw (workerInit t0) inputs).1 hab1
    refine ⟨traceTimes (workerMainLoop gw (workerInit t0) inputs).1, v,
      hv, hsp, hsv, ?_⟩
    intro x hx y hy
    exact le_trans (hb x hx) (hge y hy)
  · have hs' : (workerMainLoop gw (workerInit t0) inputs).2 = false := by
      simpa using hs
    simp only [hs', Bool.false_eq_true, if_false]
    exact ⟨traceTimes (workerMainLoop gw (workerInit t0) inputs).1, [],
      (List.append_nil _).symm, hsp, List.Pairwise.nil,
      fun x _ y hy => by cases hy⟩

/-- In an `m`-spaced list, the last element is at least `length - 1` gaps of
`m` after the head. -/
theorem spaced_head_getLast {m : ℚ} :
    ∀ (l : List ℚ) (x : ℚ), Spaced m (x :: l) →
      ∀ z, (x :: l).getLast? = some z → x + (l.length : ℚ) * m ≤ z := by
  intro l
  induction l with
  | nil =>
    intro x _ z hz
    simp only [List.getLast?_singleton, Option.some.injEq] at hz
    subst hz
    simp
  | cons y l2 ih =>
    intro x hsp z hz
    rw [Spaced, List.pairwise_cons] at hsp
    have hxy : x + m ≤ y := hsp.1 y (List.mem_cons_self _ _)
    have hz2 : (y :: l2).getLast? = some z := by
      rw [← hz]
      exact (List.getLast?_cons_cons ..).symm
    have := ih y hsp.2 z hz2
    have hlen : ((y :: l2).length : ℚ) = (l2.length : ℚ) + 1 := by
      push_cast [List.length_cons]
      ring
    rw [List.length_cons]
    push_cast
    linarith

/-- A single `m`-spaced run confined to a closed window of length `W` has at
most `⌊W / m⌋ + 1` elements. -/
theorem spaced_window_card {m : ℚ} (hm : 0 < m) (a W : ℚ) (hW : 0 ≤ W)
    (l : List ℚ) (hl : Spaced m l) (hmem : ∀ x ∈ l, a ≤ x ∧ x ≤ a + W) :
    (l.length : ℤ) ≤ ⌊W / m⌋ + 2 ∧
    (l ≠ [] → (l.length : ℤ) ≤ ⌊W / m⌋ + 1) := by
  have hfl : (0 : ℤ) ≤ ⌊W / m⌋ :=
    Int.le_floor.mpr (by positivity)
  cases l with
  | nil => exact ⟨by simpa using by omega, fun h => absurd rfl h⟩
  | cons x l2 =>
    obtain ⟨z, hz⟩ : ∃ z, (x :: l2).getLast? = some z := by
      cases l2 with
      | nil => exact ⟨x, rfl⟩
      | cons y l3 =>
        have : (y :: l3).getLast? = some ((y :: l3).getLast (by simp)) :=
          List.getLast?_eq_getLast _ _
        exact ⟨(y :: l3).getLast (by simp), by rw [List.getLast?_cons_cons, this]⟩
    have hspan := spaced_head_getLast (x :: l2).tail x (by simpa using hl) z
      (by simpa using hz)
    have hzmem : z ∈ x :: l2 := List.mem_of_mem_getLast? hz
    have h1 : a ≤ x := (hmem x (List.mem_cons_self _ _)).1
    have h2 : z ≤ a + W := (hmem z hzmem).2
    have h3 : (l2.length : ℚ) * m ≤ W := by
      simp only [List.tail_cons] at hspan
      linarith
    have h4 : (l2.length : ℚ) ≤ W / m := (le_div_iff₀ hm).mpr h3
    have h5 : (l2.length : ℤ) ≤ ⌊W / m⌋ := Int.le_floor.mpr (by exact_mod_cast h4)
    constructor
    · rw [List.length_cons]
      push_cast
      omega
    · intro _
      rw [List.length_cons]
      push_cast
      omega

/-- Counting bound for a dispatch-time list that splits into two spaced
runs: any closed window of length `W` contains at most `⌊W / m⌋ + 2`
elements. -/
theorem splitSpaced_window_count {m : ℚ} (hm : 0 < m) (a W : ℚ) (hW : 0 ≤ W)
    (ts : List ℚ) (h : SplitSpaced m ts) :
    (((ts.filter (fun t => decide (a ≤ t) && decide (t ≤ a + W))).length : ℤ))
      ≤ ⌊W / m⌋ + 2 := by
  obtain ⟨u, v, rfl, hu, hv, hcross⟩ := h
  rw [List.filter_append, List.length_append]
  set P : ℚ → Bool := fun t => decide (a ≤ t) && decide (t ≤ a + W) with hP
  have hmemP : ∀ (l : List ℚ) (x : ℚ), x ∈ l.filter P → a ≤ x ∧ x ≤ a + W := by
    intro l x hx
    have := (List.mem_filter.mp hx).2
    rw [hP] at this
    simp only [Bool.and_eq_true, decide_eq_true_eq] at this
    exact this
  have hfu_sp : Spaced m (u.filter P) := hu.sublist (List.filter_sublist _)
  have hfv_sp : Spaced m (v.filter P) := hv.sublist (List.filter_sublist _)
  have hfu_win := hmemP u
  have hfv_win := hmemP v
  rcases hcu : u.filter P with _ | ⟨x1, l1⟩
  · have := (spaced_window_card hm a W hW (v.filter P) hfv_sp hfv_win).1
    simpa using this
  · rcases hcv : v.filter P with _ | ⟨x2, l2⟩
    · have := (spaced_window_card hm a W hW (u.filter P) hfu_sp hfu_win).1
      rw [hcu] at this
      simpa using this
    · -- both runs contribute: combine spans across the cross-gap
      obtain ⟨z1, hz1⟩ : ∃ z1, (x1 :: l1).getLast? = some z1 := by
        cases l1 with
        | nil => exact ⟨x1, rfl⟩
        | cons y l3 =>
          have : (y :: l3).getLast? = some ((y :: l3).getLast (by simp)) :=
            List.getLast?_eq_getLast _ _
          exact ⟨(y :: l3).getLast (by simp),
            by rw [List.getLast?_cons_cons, this]⟩
      obtain ⟨z2, hz2⟩ : ∃ z2, (x2 :: l2).getLast? = some z2 := by
        cases l2 with
        | nil => exact ⟨x2, rfl⟩
        | cons y l3 =>
          have : (y :: l3).getLast? = some ((y :: l3).getLast (by simp)) :=
            List.getLast?_eq_getLast _ _
          exact ⟨(y :: l3).getLast (by simp),
            by rw [List.getLast?_cons_cons, this]⟩
      have hspan1 := spaced_head_getLast l1 x1 (hcu ▸ hfu_sp) z1 hz1
      have hspan2 := spaced_head_getLast l2 x2 (hcv ▸ hfv_sp) z2 hz2
      have ha1 : a ≤ x1 := (hfu_win x1 (hcu ▸ List.mem_cons_self x1 l1)).1
      have hb2 : z2 ≤ a + W :=
        (hfv_win z2 (hcv ▸ List.mem_of_mem_getLast? hz2)).2
      have hcross12 : z1 ≤ x2 := by
        apply hcross
        · exact (List.filter_sublist _).mem (hcu ▸ List.mem_of_mem_getLast? hz1)
        · exact (List.filter_sublist _).mem (hcv ▸ List.mem_cons_self x2 l2)
      have hsum : ((l1.length : ℚ) + (l2.length : ℚ)) * m ≤ W := by
        have := add_le_add hspan1 hspan2
        nlinarith [hspan1, hspan2, ha1, hb2, hcross12]
      have h4 : (l1.length : ℚ) + (l2.length : ℚ) ≤ W / m :=
        (le_div_iff₀ hm).mpr hsum
      have h5 : (l1.length : ℤ) + (l2.length : ℤ) ≤ ⌊W / m⌋ :=
        Int.le_floor.mpr (by exact_mod_cast h4)
      simp only [List.length_cons]
      push_cast
      omega

/-- C7 amended: within the main loop and within the post-sentinel flush,
consecutive dispatches are at least `MIN_BRIDGE_CMD_INTERVAL` apart; only
the single gap at the transition into the flush may be shorter.
Consequently, for every target and every closed time window of length `W`,
the number of dispatches in the window is at most
`⌊W / MIN_BRIDGE_CMD_INTERVAL⌋ + 2` (one more than the claimed
`ceil(W / min_interval)` bound, which the transition can exceed). -/
theorem worker_rate_bound_amended (gw : ℕ → PDict → Bool) (t0 : ℚ)
    (inputs : List QGet) (lid : ℕ) (a W : ℚ) (ht0 : 0 ≤ t0)
    (hd : DelaysNonneg inputs) (hW : 0 ≤ W) :
    (windowCount (runWorker gw t0 inputs) lid a W : ℤ)
      ≤ ⌊W / MIN_BRIDGE_CMD_INTERVAL⌋ + 2 := by
  have hm : (0 : ℚ) < MIN_BRIDGE_CMD_INTERVAL := by
    norm_num [MIN_BRIDGE_CMD_INTERVAL]
  obtain ⟨u, v, heq, hu, hv, hcross⟩ := runWorker_splitSpaced gw t0 inputs ht0 hd
  have hsub : List.Sublist (dispatchTimes (runWorker gw t0 inputs) lid)
      (traceTimes (runWorker gw t0 inputs)) :=
    List.Sublist.map _ (List.filter_sublist _)
  rw [heq] at hsub
  obtain ⟨u', v', heq', hsubu, hsubv⟩ := List.sublist_append_iff.mp hsub
  have hsplit' : SplitSpaced MIN_BRIDGE_CMD_INTERVAL (u' ++ v') :=
    ⟨u', v', rfl, hu.sublist hsubu, hv.sublist hsubv,
      fun x hx y hy => hcross x (hsubu.mem hx) y (hsubv.mem hy)⟩
  have := splitSpaced_window_count hm a W hW (u' ++ v') hsplit'
  rw [windowCount, heq']
  exact this

/-- Witness for the amended C7 on the concrete flush-transition schedule. -/
theorem worker_rate_bound_amended_witness :
    (windowCount (runWorker (fun _ _ => true) 10 c7_inputs) 1 (252/25) (1/4) : ℤ)
      ≤ ⌊(1/4 : ℚ) / MIN_BRIDGE_CMD_INTERVAL⌋ + 2 :=
  worker_rate_bound_amended (fun _ _ => true) 10 c7_inputs 1 (252/25) (1/4)
    (by norm_num)
    (by
      intro i hi
      simp only [c7_inputs, List.mem_cons] at hi
      rcases hi with rfl | rfl | rfl | h
      · norm_num
      · norm_num
      · norm_num
      · cases h)
    (by norm_num)

/-! ## Claim C4 -/

/-- The parameter events a schedule delivers for one target, in arrival
order. -/
def eventsFor (inputs : List QGet) (lid : ℕ) : List (String × Value) :=
  inputs.filterMap (fun i =>
    match i with
    | QGet.got _ (some (l, p, v)) => if l = lid then some (p, v) else none
    | _ => none)

/-- The bridge calls recorded for one target, in dispatch order. -/
def dispatchesFor (s : WorkerState) (lid : ℕ) : List (ℕ × PDict × ℚ) :=
  s.trace.filter (fun e => decide (e.1 = lid))

/-- The pending command map of one target (the `defaultdict` read
`self.__pending_cmds[light_id]`). -/
def pendingFor (s : WorkerState) (lid : ℕ) : PDict :=
  (aget s.pending lid).getD []

theorem eventsFor_cons_timedOut (r : List QGet) (lid : ℕ) :
    eventsFor (QGet.timedOut :: r) lid = eventsFor r lid := by
  simp [eventsFor]

theorem eventsFor_cons_sentinel (d : ℚ) (r : List QGet) (lid : ℕ) :
    eventsFor (QGet.got d none :: r) lid = eventsFor r lid := by
  simp [eventsFor]

theorem eventsFor_cons_got (d : ℚ) (l : ℕ) (p : String) (v : Value)
    (r : List QGet) (lid : ℕ) :
    eventsFor (QGet.got d (some (l, p, v)) :: r) lid
      = if l = lid then (p, v) :: eventsFor r lid else eventsFor r lid := by
  by_cases h : l = lid
  · simp [eventsFor, h]
  · simp [eventsFor, h]

section GetLastLemmas

variable {κ α : Type} [DecidableEq κ]

/-- Removing the last entry does not affect lookups of other keys. -/
theorem aget_dropLast_ne (d : AList κ α) (k : κ) (e : κ × α)
    (hl : d.getLast? = some e) (hne : e.1 ≠ k) :
    aget d.dropLast k = aget d k := by
  induction d with
  | nil => cases hl
  | cons hd tl ih =>
    cases tl with
    | nil =>
      simp only [List.getLast?_singleton, Option.some.injEq] at hl
      subst hl
      simp only [List.dropLast_single, aget, if_neg hne]
    | cons t1 t2 =>
      have hl2 : (t1 :: t2).getLast? = some e := by
        rw [← hl]
        exact (List.getLast?_cons_cons ..).symm
      rw [List.dropLast_cons₂]
      simp only [aget]
      by_cases hk : hd.1 = k
      · rw [if_pos hk, if_pos hk]
      · rw [if_neg hk, if_neg hk]
        exact ih hl2

/-- The key of the last entry is a key of the dict. -/
theorem getLast_key_mem (d : AList κ α) (e : κ × α) (hl : d.getLast? = some e) :
    e.1 ∈ d.map Prod.fst :=
  List.mem_map.mpr ⟨e, List.mem_of_mem_getLast? hl, rfl⟩

/-- With distinct keys, the last entry is the lookup result for its key. -/
theorem aget_of_getLast (d : AList κ α) (e : κ × α) (hn : AKeysNodup d)
    (hl : d.getLast? = some e) : aget d e.1 = some e.2 := by
  induction d with
  | nil => cases hl
  | cons hd tl ih =>
    simp only [AKeysNodup, List.map_cons, List.nodup_cons] at hn
    cases tl with
    | nil =>
      simp only [List.getLast?_singleton, Option.some.injEq] at hl
      subst hl
      simp [aget]
    | cons t1 t2 =>
      have hl2 : (t1 :: t2).getLast? = some e := by
        rw [← hl]
        exact (List.getLast?_cons_cons ..).symm
      have hmem : e.1 ∈ (t1 :: t2).map Prod.fst := getLast_key_mem _ _ hl2
      have hne : ¬ (hd.1 = e.1) := fun hh => hn.1 (hh ▸ hmem)
      simp only [aget, if_neg hne]
      exact ih hn.2 hl2

/-- With distinct keys, removing the last entry removes its key. -/
theorem aget_dropLast_self (d : AList κ α) (e : κ × α) (hn : AKeysNodup d)
    (hl : d.getLast? = some e) : aget d.dropLast e.1 = none := by
  induction d with
  | nil => cases hl
  | cons hd tl ih =>
    simp only [AKeysNodup, List.map_cons, List.nodup_cons] at hn
    cases tl with
    | nil =>
      simp only [List.getLast?_singleton, Option.some.injEq] at hl
      subst hl
      simp [aget]
    | cons t1 t2 =>
      have hl2 : (t1 :: t2).getLast? = some e := by
        rw [← hl]
        exact (List.getLast?_cons_cons ..).symm
      have hmem : e.1 ∈ (t1 :: t2).map Prod.fst := getLast_key_mem _ _ hl2
      have hne : ¬ (hd.1 = e.1) := fun hh => hn.1 (hh ▸ hmem)
      rw [List.dropLast_cons₂]
      simp only [aget, if_neg hne]
      exact ih hn.2 hl2

/-- Removing the last entry keeps the keys distinct. -/
theorem nodup_dropLast (d : AList κ α) (hn : AKeysNodup d) :
    AKeysNodup d.dropLast :=
  hn.sublist (List.Sublist.map _ (List.dropLast_sublist _))

/-- An empty `getLast?` means the dict is empty. -/
theorem eq_nil_of_getLast_none (d : AList κ α) (hl : d.getLast? = none) :
    d = [] := by
  cases d with
  | nil => rfl
  | cons hd tl =>
    have hs : ((hd :: tl).getLast?).isSome = true :=
      List.getLast?_isSome.mpr (by simp)
    rw [hl] at hs
    cases hs

/-- A key present among the dict's keys has a lookup result. -/
theorem mem_keys_aget_isSome (d : AList κ α) (k : κ)
    (h : k ∈ d.map Prod.fst) : (aget d k).isSome = true := by
  induction d with
  | nil => simp at h
  | cons hd tl ih =>
    by_cases hk : hd.1 = k
    · simp [aget, hk]
    · simp only [List.map_cons, List.mem_cons] at h
      rcases h with h | h
      · exact absurd h.symm hk
      · simp only [aget, if_neg hk]
        exact ih h

end GetLastLemmas

/-- Normal forms of the dispatch check on a live worker: either the state is
unchanged, or the most recently inserted pending entry is popped and
dispatched, the bridge succeeding or raising. -/
theorem runDispatchStep_cases (gw : ℕ → PDict → Bool) (s : WorkerState)
    (hab : s.aborted = false) :
    runDispatchStep gw s = s ∨
    (∃ lid cmd, s.pending.getLast? = some (lid, cmd) ∧ gw lid cmd = true ∧
      runDispatchStep gw s
        = { s with
              pending := s.pending.dropLast,
              trace := s.trace ++ [(lid, cmd, s.now)],
              lastUpdate := s.now }) ∨
    (∃ lid cmd, s.pending.getLast? = some (lid, cmd) ∧ gw lid cmd = false ∧
      runDispatchStep gw s
        = { s with
              pending := s.pending.dropLast,
              trace := s.trace ++ [(lid, cmd, s.now)],
              aborted := true }) := by
  by_cases hdue : MIN_BRIDGE_CMD_INTERVAL ≤ s.now - s.lastUpdate
  · rcases updateBridge_cases gw s with ⟨hl, hub⟩ | ⟨lid, cmd, hl, hg, hub⟩
        | ⟨lid, cmd, hl, hg, hub⟩
    · left
      unfold runDispatchStep
      rw [if_pos hdue, hub]
    · refine Or.inr (Or.inl ⟨lid, cmd, hl, hg, ?_⟩)
      unfold runDispatchStep
      rw [if_pos hdue, hub]
      dsimp only
      simp only [hab, Bool.false_eq_true, if_false]
    · refine Or.inr (Or.inr ⟨lid, cmd, hl, hg, ?_⟩)
      unfold runDispatchStep
      rw [if_pos hdue, hub]
      dsimp only
      rw [if_pos rfl]
  · left
    unfold runDispatchStep
    rw [if_neg hdue]

/-- Reduction of one main-loop iteration when the dispatch check aborted. -/
theorem workerMainLoop_cons_stop (gw : ℕ → PDict → Bool) (s : WorkerState)
    (i : QGet) (rest : List QGet) (h : (runDispatchStep gw s).aborted = true) :
    workerMainLoop gw s (i :: rest) = (runDispatchStep gw s, false) := by
  simp only [workerMainLoop]
  rw [if_pos h]

/-- Reduction of one live main-loop iteration on a queue timeout. -/
theorem workerMainLoop_cons_timedOut (gw : ℕ → PDict → Bool) (s : WorkerState)
    (rest : List QGet) (h : (runDispatchStep gw s).aborted = false) :
    workerMainLoop gw s (QGet.timedOut :: rest)
      = workerMainLoop gw
          { runDispatchStep gw s with
            now := (runDispatchStep gw s).now + waitTime (runDispatchStep gw s) }
          rest := by
  simp only [workerMainLoop]
  rw [if_neg (by simp [h])]

/-- Reduction of one live main-loop iteration on the shutdown sentinel. -/
theorem workerMainLoop_cons_sentinel (gw : ℕ → PDict → Bool) (s : WorkerState)
    (d : ℚ) (rest : List QGet) (h : (runDispatchStep gw s).aborted = false) :
    workerMainLoop gw s (QGet.got d none :: rest)
      = ({ runDispatchStep gw s with
           now := (runDispatchStep gw s).now + d }, true) := by
  simp only [workerMainLoop]
  rw [if_neg (by simp [h])]

/-- Reduction of one live main-loop iteration on a parameter event. -/
theorem workerMainLoop_cons_got (gw : ℕ → PDict → Bool) (s : WorkerState)
    (d : ℚ) (l : ℕ) (p : String) (v : Value) (rest : List QGet)
    (h : (runDispatchStep gw s).aborted = false) :
    workerMainLoop gw s (QGet.got d (some (l, p, v)) :: rest)
      = workerMainLoop gw
          { runDispatchStep gw s with
            now := (runDispatchStep gw s).now + d,
            pending := pendSet (runDispatchStep gw s).pending l p v }
          rest := by
  simp only [workerMainLoop]
  rw [if_neg (by simp [h])]

/-- Without the shutdown sentinel in its input, the main loop never reports
having received it. -/
theorem workerMainLoop_no_sentinel (gw : ℕ → PDict → Bool) :
    ∀ (inputs : List QGet) (s : WorkerState),
      (∀ d : ℚ, QGet.got d none ∉ inputs) →
      (workerMainLoop gw s inputs).2 = false := by
  intro inputs
  induction inputs with
  | nil => intro s _; rfl
  | cons i rest ih =>
    intro s hns
    by_cases h1 : (runDispatchStep gw s).aborted = true
    · rw [workerMainLoop_cons_stop gw s i rest h1]
    · have h1' : (runDispatchStep gw s).aborted = false := by
        cases hb : (runDispatchStep gw s).aborted
        · rfl
        · exact absurd hb h1
      cases i with
      | timedOut =>
        rw [workerMainLoop_cons_timedOut gw s rest h1']
        exact ih _ (fun d hd => hns d (List.mem_cons_of_mem _ hd))
      | got d e =>
        cases e with
        | none => exact absurd (List.mem_cons_self _ _) (hns d)
        | some t =>
          obtain ⟨l, p, v⟩ := t
          rw [workerMainLoop_cons_got gw s d l p v rest h1']
          exact ih _ (fun d' hd => hns d' (List.mem_cons_of_mem _ hd))

/-- With a bridge that always succeeds, one dispatch check keeps the worker
live and keeps the pending keys distinct. -/
theorem runDispatchStep_basic (gw : ℕ → PDict → Bool)
    (hgw : ∀ l c, gw l c = true) (s : WorkerState)
    (hab : s.aborted = false) (hnod : AKeysNodup s.pending) :
    (runDispatchStep gw s).aborted = false ∧
    AKeysNodup (runDispatchStep gw s).pending := by
  rcases runDispatchStep_cases gw s hab with hred | ⟨l, cmd, hl, hg, hred⟩
      | ⟨l, cmd, hl, hg, hred⟩
  · rw [hred]
    exact ⟨hab, hnod⟩
  · rw [hred]
    exact ⟨hab, nodup_dropLast _ hnod⟩
  · rw [hgw l cmd] at hg
    cases hg

/-- With a bridge that always succeeds, the main loop keeps the worker live
and keeps the pending keys distinct. -/
theorem workerMainLoop_basic (gw : ℕ → PDict → Bool)
    (hgw : ∀ l c, gw l c = true) :
    ∀ (inputs : List QGet) (s : WorkerState),
      s.aborted = false → AKeysNodup s.pending →
      (workerMainLoop gw s inputs).1.aborted = false ∧
      AKeysNodup (workerMainLoop gw s inputs).1.pending := by
  intro inputs
  induction inputs with
  | nil => intro s hab hnod; exact ⟨hab, hnod⟩
  | cons i rest ih =>
    intro s hab hnod
    obtain ⟨hab1, hnod1⟩ := runDispatchStep_basic gw hgw s hab hnod
    cases i with
    | timedOut =>
      rw [workerMainLoop_cons_timedOut gw s rest hab1]
      exact ih _ hab1 hnod1
    | got d e =>
      cases e with
      | none =>
        rw [workerMainLoop_cons_sentinel gw s d rest hab1]
        exact ⟨hab1, hnod1⟩
      | some t =>
        obtain ⟨l, p, v⟩ := t
        rw [workerMainLoop_cons_got gw s d l p v rest hab1]
        exact ih _ hab1 (nodup_aset _ _ _ hnod1)

/-- Splitting the main loop's input: a run that neither aborted nor saw the
sentinel continues seamlessly on further input. -/
theorem workerMainLoop_append (gw : ℕ → PDict → Bool) :
    ∀ (l1 l2 : List QGet) (s : WorkerState),
      (workerMainLoop gw s l1).2 = false →
      (workerMainLoop gw s l1).1.aborted = false →
      workerMainLoop gw s (l1 ++ l2)
        = workerMainLoop gw (workerMainLoop gw s l1).1 l2 := by
  intro l1
  induction l1 with
  | nil => intro l2 s _ _; rfl
  | cons i rest ih =>
    intro l2 s hsn hab
    by_cases h1 : (runDispatchStep gw s).aborted = true
    · rw [workerMainLoop_cons_stop gw s i rest h1] at hab
      dsimp only at hab
      rw [hab] at h1
      cases h1
    · have h1' : (runDispatchStep gw s).aborted = false := by
        cases hb : (runDispatchStep gw s).aborted
        · rfl
        · exact absurd hb h1
      cases i with
      | timedOut =>
        rw [workerMainLoop_cons_timedOut gw s rest h1'] at hsn hab
        rw [List.cons_append, workerMainLoop_cons_timedOut gw s (rest ++ l2) h1',
            workerMainLoop_cons_timedOut gw s rest h1']
        exact ih l2 _ hsn hab
      | got d e =>
        cases e with
        | none =>
          rw [workerMainLoop_cons_sentinel gw s d rest h1'] at hsn
          simp at hsn
        | some t =>
          obtain ⟨l, p, v⟩ := t
          rw [workerMainLoop_cons_got gw s d l p v rest h1'] at hsn hab
          rw [List.cons_append, workerMainLoop_cons_got gw s d l p v (rest ++ l2) h1',
              workerMainLoop_cons_got gw s d l p v rest h1']
          exact ih l2 _ hsn hab

/-- One dispatch check extends the trace by at most one entry; when that
entry is not the target's, the target's pending map is unchanged. -/
theorem runDispatchStep_acc (gw : ℕ → PDict → Bool) (lid : ℕ)
    (hgw : ∀ l c, gw l c = true) (s : WorkerState)
    (hab : s.aborted = false) (hnod : AKeysNodup s.pending) :
    ∃ ste, (runDispatchStep gw s).trace = s.trace ++ ste ∧
      (ste.filter (fun e => decide (e.1 = lid)) = [] →
        pendingFor (runDispatchStep gw s) lid = pendingFor s lid) := by
  rcases runDispatchStep_cases gw s hab with hred | ⟨l, cmd, hl, hg, hred⟩
      | ⟨l, cmd, hl, hg, hred⟩
  · exact ⟨[], by rw [hred]; exact (List.append_nil _).symm, fun _ => by rw [hred]⟩
  · refine ⟨[(l, cmd, s.now)], by rw [hred], ?_⟩
    intro hfil
    by_cases hll : l = lid
    · rw [hll] at hfil
      simp at hfil
    · rw [hred]
      show (aget s.pending.dropLast lid).getD [] = (aget s.pending lid).getD []
      rw [aget_dropLast_ne s.pending lid (l, cmd) hl hll]
  · rw [hgw l cmd] at hg
    cases hg

/-- During a live, sentinel-free stretch of input the trace only grows and,
as long as the target is never dispatched, the worker merges the target's
events into its single pending map by `aset`, in arrival order. -/
theorem workerMainLoop_pending_acc (gw : ℕ → PDict → Bool) (lid : ℕ)
    (hgw : ∀ l c, gw l c = true) :
    ∀ (inputs : List QGet) (s : WorkerState),
      (∀ d : ℚ, QGet.got d none ∉ inputs) →
      s.aborted = false → AKeysNodup s.pending →
      ∃ ext, (workerMainLoop gw s inputs).1.trace = s.trace ++ ext ∧
        (ext.filter (fun e => decide (e.1 = lid)) = [] →
          pendingFor (workerMainLoop gw s inputs).1 lid
            = (eventsFor inputs lid).foldl (fun d e => aset d e.1 e.2)
                (pendingFor s lid)) := by
  intro inputs
  induction inputs with
  | nil =>
    intro s _ _ _
    exact ⟨[], (List.append_nil _).symm, fun _ => rfl⟩
  | cons i rest ih =>
    intro s hns hab hnod
    obtain ⟨hab1, hnod1⟩ := runDispatchStep_basic gw hgw s hab hnod
    obtain ⟨ste, htr1, hpend1⟩ := runDispatchStep_acc gw lid hgw s hab hnod
    cases i with
    | timedOut =>
      rw [workerMainLoop_cons_timedOut gw s rest hab1]
      obtain ⟨ext2, htr2, hpend2⟩ :=
        ih { runDispatchStep gw s with
             now := (runDispatchStep gw s).now + waitTime (runDispatchStep gw s) }
          (fun d hd => hns d (List.mem_cons_of_mem _ hd)) hab1 hnod1
      refine ⟨ste ++ ext2, ?_, ?_⟩
      · rw [htr2]
        show (runDispatchStep gw s).trace ++ ext2 = s.trace ++ (ste ++ ext2)
        rw [htr1, List.append_assoc]
      · intro hfil
        rw [List.filter_append] at hfil
        obtain ⟨hf1, hf2⟩ := List.append_eq_nil.mp hfil
        rw [eventsFor_cons_timedOut, hpend2 hf2]
        have hps : pendingFor
            { runDispatchStep gw s with
              now := (runDispatchStep gw s).now + waitTime (runDispatchStep gw s) }
            lid = pendingFor s lid := hpend1 hf1
        rw [hps]
    | got d e =>
      cases e with
      | none => exact absurd (List.mem_cons_self _ _) (hns d)
      | some t =>
        obtain ⟨l, p, v⟩ := t
        rw [workerMainLoop_cons_got gw s d l p v rest hab1]
        obtain ⟨ext2, htr2, hpend2⟩ :=
          ih { runDispatchStep gw s with
               now := (runDispatchStep gw s).now + d,
               pending := pendSet (runDispatchStep gw s).pending l p v }
            (fun d' hd => hns d' (List.mem_cons_of_mem _ hd)) hab1
            (nodup_aset _ _ _ hnod1)
        refine ⟨ste ++ ext2, ?_, ?_⟩
        · rw [htr2]
          show (runDispatchStep gw s).trace ++ ext2 = s.trace ++ (ste ++ ext2)
          rw [htr1, List.append_assoc]
        · intro hfil
          rw [List.filter_append] at hfil
          obtain ⟨hf1, hf2⟩ := List.append_eq_nil.mp hfil
          rw [eventsFor_cons_got, hpend2 hf2]
          by_cases hll : l = lid
          · rw [if_pos hll, List.foldl_cons]
            have hps : pendingFor
                { runDispatchStep gw s with
                  now := (runDispatchStep gw s).now + d,
                  pending := pendSet (runDispatchStep gw s).pending l p v }
                lid = aset (pendingFor s lid) p v := by
              show (aget (pendSet (runDispatchStep gw s).pending l p v) lid).getD []
                  = aset (pendingFor s lid) p v
              rw [hll]
              show (aget (aset (runDispatchStep gw s).pending lid
                  (aset ((aget (runDispatchStep gw s).pending lid).getD []) p v))
                  lid).getD [] = aset (pendingFor s lid) p v
              rw [aget_aset_self]
              show aset (pendingFor (runDispatchStep gw s) lid) p v
                  = aset (pendingFor s lid) p v
              rw [hpend1 hf1]
            rw [hps]
          · rw [if_neg hll]
            have hps : pendingFor
                { runDispatchStep gw s with
                  now := (runDispatchStep gw s).now + d,
                  pending := pendSet (runDispatchStep gw s).pending l p v }
                lid = pendingFor s lid := by
              show (aget (aset (runDispatchStep gw s).pending l
                  (aset ((aget (runDispatchStep gw s).pending l).getD []) p v))
                  lid).getD [] = pendingFor s lid
              rw [aget_aset_ne _ _ (fun he => hll he.symm)]
              exact hpend1 hf1
            rw [hps]

/-- Invariant tying one target's pending map to its dispatch record: either
the merged map `M` is still pending and nothing was dispatched for the
target, or the whole map was dispatched exactly once. -/
def CoalesceInv (lid : ℕ) (M : PDict) (s : WorkerState) : Prop :=
  AKeysNodup s.pending ∧ s.aborted = false ∧
    ((aget s.pending lid = some M ∧ dispatchesFor s lid = []) ∨
     (aget s.pending lid = none ∧
       ∃ t : ℚ, dispatchesFor s lid = [(lid, M, t)]))

/-- Popping and dispatching the most recent pending entry preserves the
coalescing invariant's key facts. -/
theorem coalesceInv_pop (lid : ℕ) (M : PDict) (s : WorkerState)
    (l : ℕ) (cmd : PDict) (hl : s.pending.getLast? = some (l, cmd))
    (h : CoalesceInv lid M s) :
    AKeysNodup s.pending.dropLast ∧
    ((aget s.pending.dropLast lid = some M ∧
        (s.trace ++ [(l, cmd, s.now)]).filter (fun e => decide (e.1 = lid)) = []) ∨
     (aget s.pending.dropLast lid = none ∧ ∃ t : ℚ,
        (s.trace ++ [(l, cmd, s.now)]).filter (fun e => decide (e.1 = lid))
          = [(lid, M, t)])) := by
  obtain ⟨hnod, hab, hc⟩ := h
  refine ⟨nodup_dropLast _ hnod, ?_⟩
  rw [List.filter_append]
  by_cases hll : l = lid
  · rcases hc with ⟨hg1, hd1⟩ | ⟨hg1, t1, hd1⟩
    · have hgl : aget s.pending l = some cmd :=
        aget_of_getLast s.pending (l, cmd) hnod hl
      rw [hll] at hgl
      rw [hg1] at hgl
      have hcmd : cmd = M := by
        injection hgl with h'
        exact h'.symm
      refine Or.inr ⟨?_, s.now, ?_⟩
      · have h2 := aget_dropLast_self s.pending (l, cmd) hnod hl
        rw [hll] at h2
        exact h2
      · have hd1' : s.trace.filter (fun e => decide (e.1 = lid)) = [] := hd1
        rw [hd1', List.nil_append]
        simp [hll, hcmd]
    · have hmem := getLast_key_mem s.pending (l, cmd) hl
      have hsome := mem_keys_aget_isSome s.pending l hmem
      rw [hll] at hsome
      rw [hg1] at hsome
      simp at hsome
  · have hpend := aget_dropLast_ne s.pending lid (l, cmd) hl hll
    have hfil : [(l, cmd, s.now)].filter (fun e => decide (e.1 = lid)) = [] := by
      simp [hll]
    rw [hfil, List.append_nil, hpend]
    exact hc

/-- The dispatch check preserves the coalescing invariant when the bridge
always succeeds. -/
theorem coalesceInv_dispatchStep (gw : ℕ → PDict → Bool) (lid : ℕ) (M : PDict)
    (hgw : ∀ l c, gw l c = true) (s : WorkerState)
    (h : CoalesceInv lid M s) : CoalesceInv lid M (runDispatchStep gw s) := by
  rcases runDispatchStep_cases gw s h.2.1 with hred | ⟨l, cmd, hl, hg, hred⟩
      | ⟨l, cmd, hl, hg, hred⟩
  · rw [hred]
    exact h
  · rw [hred]
    exact ⟨(coalesceInv_pop lid M s l cmd hl h).1, h.2.1,
           (coalesceInv_pop lid M s l cmd hl h).2⟩
  · rw [hgw l cmd] at hg
    cases hg

/-- The main loop preserves the coalescing invariant on input containing no
further events for the target. -/
theorem coalesceInv_mainLoop (gw : ℕ → PDict → Bool) (lid : ℕ) (M : PDict)
    (hgw : ∀ l c, gw l c = true) :
    ∀ (inputs : List QGet) (s : WorkerState),
      eventsFor inputs lid = [] → CoalesceInv lid M s →
      CoalesceInv lid M (workerMainLoop gw s inputs).1 := by
  intro inputs
  induction inputs with
  | nil => intro s _ h; exact h
  | cons i rest ih =>
    intro s hev h
    have h1 : CoalesceInv lid M (runDispatchStep gw s) :=
      coalesceInv_dispatchStep gw lid M hgw s h
    have hab1 : (runDispatchStep gw s).aborted = false := h1.2.1
    cases i with
    | timedOut =>
      rw [workerMainLoop_cons_timedOut gw s rest hab1]
      rw [eventsFor_cons_timedOut] at hev
      exact ih _ hev h1
    | got d e =>
      cases e with
      | none =>
        rw [workerMainLoop_cons_sentinel gw s d rest hab1]
        exact h1
      | some t =>
        obtain ⟨l, p, v⟩ := t
        rw [workerMainLoop_cons_got gw s d l p v rest hab1]
        rw [eventsFor_cons_got] at hev
        by_cases hll : l = lid
        · rw [if_pos hll] at hev
          cases hev
        · rw [if_neg hll] at hev
          refine ih _ hev ?_
          obtain ⟨hnod1, hab1', hc1⟩ := h1
          have hpg : aget (pendSet (runDispatchStep gw s).pending l p v) lid
              = aget (runDispatchStep gw s).pending lid :=
            aget_aset_ne _ _ (fun he => hll he.symm)
          refine ⟨nodup_aset _ _ _ hnod1, hab1', ?_⟩
          rcases hc1 with ⟨hg1, hd1⟩ | ⟨hg1, t1, hd1⟩
          · refine Or.inl ⟨?_, hd1⟩
            show aget (pendSet (runDispatchStep gw s).pending l p v) lid = some M
            rw [hpg]
            exact hg1
          · refine Or.inr ⟨?_, t1, hd1⟩
            show aget (pendSet (runDispatchStep gw s).pending l p v) lid = none
            rw [hpg]
            exact hg1

/-- The shutdown flush preserves the coalescing invariant when the bridge
always succeeds. -/
theorem coalesceInv_flushGo (gw : ℕ → PDict → Bool) (lid : ℕ) (M : PDict)
    (hgw : ∀ l c, gw l c = true) :
    ∀ (fuel : ℕ) (s : WorkerState), CoalesceInv lid M s →
      CoalesceInv lid M (workerFlushGo gw fuel s) := by
  intro fuel
  induction fuel with
  | zero => intro s h; exact h
  | succ n ih =>
    intro s h
    have hab : s.aborted = false := h.2.1
    rcases updateBridge_cases gw s with ⟨hl, hub⟩ | ⟨l, cmd, hl, hg, hub⟩
        | ⟨l, cmd, hl, hg, hub⟩
    · simp only [workerFlushGo]
      rw [hub]
      exact h
    · simp only [workerFlushGo]
      rw [hub]
      dsimp only
      simp only [hab, Bool.false_eq_true, if_false]
      exact ih _ ⟨(coalesceInv_pop lid M s l cmd hl h).1, rfl,
                  (coalesceInv_pop lid M s l cmd hl h).2⟩
    · rw [hgw l cmd] at hg
      cases hg

/-- With enough fuel and an always-successful bridge, the shutdown flush
empties the pending map (the `while self.__update_bridge()` loop only stops
when `popitem` finds nothing left). -/
theorem flushGo_pending_nil (gw : ℕ → PDict → Bool)
    (hgw : ∀ l c, gw l c = true) :
    ∀ (fuel : ℕ) (s : WorkerState), s.aborted = false →
      s.pending.length ≤ fuel → (workerFlushGo gw fuel s).pending = [] := by
  intro fuel
  induction fuel with
  | zero =>
    intro s _ hlen
    simp only [workerFlushGo]
    exact List.eq_nil_of_length_eq_zero (Nat.le_zero.mp hlen)
  | succ n ih =>
    intro s hab hlen
    rcases updateBridge_cases gw s with ⟨hl, hub⟩ | ⟨l, cmd, hl, hg, hub⟩
        | ⟨l, cmd, hl, hg, hub⟩
    · simp only [workerFlushGo]
      rw [hub]
      exact eq_nil_of_getLast_none s.pending hl
    · simp only [workerFlushGo]
      rw [hub]
      dsimp only
      simp only [hab, Bool.false_eq_true, if_false]
      refine ih _ rfl ?_
      show s.pending.dropLast.length ≤ n
      rw [List.length_dropLast]
      omega
    · rw [hgw l cmd] at hg
      cases hg

/-- Claim C4: for every target and every schedule on which the bridge keeps
succeeding, if the events `(T1,"bri",10)`, `(T1,"bri",20)`, `(T1,"hue",5)`
are consumed before the target's next dispatch tick (no dispatch for the
target occurs while they arrive) and no further events for the target
follow, then once the worker finishes (the shutdown sentinel arrives)
exactly one command has been dispatched for the target, and its parameter
map is `{bri: 20, hue: 5}`; in general, over any sentinel-free,
not-yet-dispatched stretch of input, the worker merges each received event
into the target's single pending map with last-write-wins per parameter
key, in arrival order. -/
theorem worker_coalescing (gw : ℕ → PDict → Bool) (t0 : ℚ)
    (burst rest : List QGet) (lid : ℕ)
    (hgw : ∀ l c, gw l c = true)
    (hnosent : ∀ d : ℚ, QGet.got d none ∉ burst)
    (hburst : eventsFor burst lid
        = [("bri", Value.int 10), ("bri", Value.int 20), ("hue", Value.int 5)])
    (hnotick : dispatchesFor (workerMainLoop gw (workerInit t0) burst).1 lid = [])
    (hrest : eventsFor rest lid = [])
    (hsent : (workerMainLoop gw (workerInit t0) (burst ++ rest)).2 = true) :
    (∃ t : ℚ, dispatchesFor (runWorker gw t0 (burst ++ rest)) lid
        = [(lid, [("bri", Value.int 20), ("hue", Value.int 5)], t)]) ∧
    (∀ (inputs : List QGet) (l : ℕ) (k : String) (v : Value),
        (∀ d : ℚ, QGet.got d none ∉ inputs) →
        dispatchesFor (workerMainLoop gw (workerInit t0) inputs).1 l = [] →
        lastWrite (eventsFor inputs l) k = some v →
        aget (pendingFor (workerMainLoop gw (workerInit t0) inputs).1 l) k
          = some v) ∧
    (∀ (inputs : List QGet) (l : ℕ) (k : String),
        (∀ d : ℚ, QGet.got d none ∉ inputs) →
        dispatchesFor (workerMainLoop gw (workerInit t0) inputs).1 l = [] →
        lastWrite (eventsFor inputs l) k = none →
        aget (pendingFor (workerMainLoop gw (workerInit t0) inputs).1 l) k
          = none) := by
  have hacc : ∀ (inputs : List QGet) (l : ℕ),
      (∀ d : ℚ, QGet.got d none ∉ inputs) →
      dispatchesFor (workerMainLoop gw (workerInit t0) inputs).1 l = [] →
      pendingFor (workerMainLoop gw (workerInit t0) inputs).1 l
        = (eventsFor inputs l).foldl (fun d e => aset d e.1 e.2) [] := by
    intro inputs l hns hnd
    obtain ⟨ext, htr, hp⟩ := workerMainLoop_pending_acc gw l hgw inputs
      (workerInit t0) hns rfl List.nodup_nil
    have hfil : ext.filter (fun e => decide (e.1 = l)) = [] := by
      have hnd' : (workerMainLoop gw (workerInit t0) inputs).1.trace.filter
          (fun e => decide (e.1 = l)) = [] := hnd
      rw [htr] at hnd'
      simpa [workerInit] using hnd'
    have hfold := hp hfil
    rw [hfold]
    rfl
  refine ⟨?_, ?_, ?_⟩
  · have hnodinit : AKeysNodup (workerInit t0).pending := List.nodup_nil
    obtain ⟨habB, hnodB⟩ :=
      workerMainLoop_basic gw hgw burst (workerInit t0) rfl hnodinit
    have hbs : (workerMainLoop gw (workerInit t0) burst).2 = false :=
      workerMainLoop_no_sentinel gw burst (workerInit t0) hnosent
    have hpend := hacc burst lid hnosent hnotick
    rw [hburst] at hpend
    have hM : (([("bri", Value.int 10), ("bri", Value.int 20),
        ("hue", Value.int 5)] : List (String × Value)).foldl
          (fun d e => aset d e.1 e.2) [])
        = [("bri", Value.int 20), ("hue", Value.int 5)] := by decide
    rw [hM] at hpend
    have hag : aget (workerMainLoop gw (workerInit t0) burst).1.pending lid
        = some [("bri", Value.int 20), ("hue", Value.int 5)] := by
      cases hga : aget (workerMainLoop gw (workerInit t0) burst).1.pending lid with
      | none =>
        exfalso
        have hemp : pendingFor (workerMainLoop gw (workerInit t0) burst).1 lid
            = [] := by
          rw [pendingFor, hga]
          rfl
        rw [hemp] at hpend
        exact List.noConfusion hpend
      | some N =>
        have hN : pendingFor (workerMainLoop gw (workerInit t0) burst).1 lid
            = N := by
          rw [pendingFor, hga]
          rfl
        rw [hN] at hpend
        rw [hpend]
    have hinv1 : CoalesceInv lid [("bri", Value.int 20), ("hue", Value.int 5)]
        (workerMainLoop gw (workerInit t0) burst).1 :=
      ⟨hnodB, habB, Or.inl ⟨hag, hnotick⟩⟩
    have happ := workerMainLoop_append gw burst rest (workerInit t0) hbs habB
    have hinv2 : CoalesceInv lid [("bri", Value.int 20), ("hue", Value.int 5)]
        (workerMainLoop gw (workerInit t0) (burst ++ rest)).1 := by
      rw [happ]
      exact coalesceInv_mainLoop gw lid _ hgw rest _ hrest hinv1
    have hrw : runWorker gw t0 (burst ++ rest)
        = workerFlush gw (workerMainLoop gw (workerInit t0) (burst ++ rest)).1 := by
      simp only [runWorker]
      rw [if_pos hsent]
    have hinv3 : CoalesceInv lid [("bri", Value.int 20), ("hue", Value.int 5)]
        (runWorker gw t0 (burst ++ rest)) := by
      rw [hrw]
      exact coalesceInv_flushGo gw lid _ hgw _ _ hinv2
    have hnilp : (runWorker gw t0 (burst ++ rest)).pending = [] := by
      rw [hrw]
      exact flushGo_pending_nil gw hgw _ _ hinv2.2.1 (le_refl _)
    rcases hinv3.2.2 with ⟨hg1, _⟩ | ⟨_, t, hd⟩
    · rw [hnilp] at hg1
      cases hg1
    · exact ⟨t, hd⟩
  · intro inputs l k v hns hnd hlw
    rw [hacc inputs l hns hnd]
    exact foldl_aset_last_write k v _ _ hlw
  · intro inputs l k hns hnd hlw
    rw [hacc inputs l hns hnd, foldl_aset_no_write k _ _ hlw]
    rfl

/-- The C4 witness burst: the three claim events for light 1, each arriving
a tenth of a second apart, all inside the first 0.4 s dispatch interval. -/
def c4_burst : List QGet :=
  [.got (1/10) (some (1, "bri", Value.int 10)),
   .got (1/10) (some (1, "bri", Value.int 20)),
   .got (1/10) (some (1, "hue", Value.int 5))]

/-- The C4 witness shutdown: the sentinel, with no further light-1 events. -/
def c4_shutdown : List QGet := [.got (1/10) none]

/-- Witness for C4 on a concrete schedule realizing its hypotheses: the
three events arrive within the first dispatch interval and the shutdown
sentinel follows, so the finished worker has dispatched exactly one
command for light 1, carrying `{bri: 20, hue: 5}`. -/
theorem worker_coalescing_witness :
    ∃ t : ℚ,
      dispatchesFor (runWorker (fun _ _ => true) 0 (c4_burst ++ c4_shutdown)) 1
        = [(1, [("bri", Value.int 20), ("hue", Value.int 5)], t)] :=
  (worker_coalescing (fun _ _ => true) 0 c4_burst c4_shutdown 1
    (fun _ _ => rfl)
    (by intro d hd; simp [c4_burst] at hd)
    (by rfl)
    (by norm_num +decide [workerMainLoop, runDispatchStep, updateBridge,
      waitTime, qmod, pendSet, aset, aget, MIN_BRIDGE_CMD_INTERVAL, workerInit,
      c4_burst, dispatchesFor])
    (by rfl)
    (by norm_num +decide [workerMainLoop, runDispatchStep, updateBridge,
      waitTime, qmod, pendSet, aset, aget, MIN_BRIDGE_CMD_INTERVAL, workerInit,
      c4_burst, c4_shutdown, dispatchesFor])).1

end HueToys
